import Mathlib

/-!
Verification development for the `geojsonvt` Rust crate (GeoPanic/geojsonvt).

Shallow-embedding conventions:
* `f64` values are modelled as `ℚ`.  All arithmetic on the verified paths is
  exact field arithmetic and comparisons.  The crate's two transcendental
  computations are parameters of the embedding:
  - `lat_to_mercator_y` (latitude projection, uses `sin`/`ln`) is a parameter
    `projY : ℚ → ℚ`;
  - `f64::hypot` (Euclidean segment length, uses `sqrt`) is a parameter
    `hp : VtPoint → VtPoint → ℚ`.
  Theorems quantify over these parameters, so they hold in particular for the
  real Mercator projection and Euclidean length.
* Rust panics (`assert!`, `Option::unwrap` on `None`) are modelled by
  `Option`: a `none` result is a panic.  `usize`/`u32` arithmetic is `ℕ`
  with explicit wrapping where the code can overflow.
* `Rc` sharing, feature `id`s and `properties` maps are payload that no
  verified claim inspects; they are dropped from the model.  The `stats`,
  `total` and `tile_coords` bookkeeping fields of `GeoJSONVT` are likewise
  dropped.
* Division by zero is total in `ℚ` (gives 0) while Rust `f64` gives
  NaN/inf; each use of division in the embedded code is guarded so that the
  denominator is nonzero on every reachable path (see the comments at
  `calcProgress`).
-/

namespace GeoJsonVt

/-- `types.rs` `VtPoint`: a projected point; `z` carries the Douglas–Peucker
importance score. -/
structure VtPoint where
  x : ℚ
  y : ℚ
  z : ℚ
  deriving DecidableEq, Repr

/-- `types.rs` `VtLineString`. -/
structure VtLineString where
  elements : List VtPoint
  dist : ℚ
  seg_start : ℚ
  seg_end : ℚ
  deriving DecidableEq, Repr

/-- `types.rs` `VtLinearRing`. -/
structure VtLinearRing where
  elements : List VtPoint
  area : ℚ
  deriving DecidableEq, Repr

/-- `types.rs` `VtGeometry`. -/
inductive VtGeometry where
  | point (p : VtPoint)
  | multiPoint (ps : List VtPoint)
  | lineString (l : VtLineString)
  | multiLineString (ls : List VtLineString)
  | polygon (rs : List VtLinearRing)
  | multiPolygon (ps : List (List VtLinearRing))
  | geometryCollection (gs : List VtGeometry)

mutual

/-- All points of a geometry in traversal order
(`types.rs` `VtGeometry::iter_each_point`). -/
def VtGeometry.points : VtGeometry → List VtPoint
  | .point p => [p]
  | .multiPoint ps => ps
  | .lineString l => l.elements
  | .multiLineString ls => (ls.map fun l => l.elements).flatten
  | .polygon rs => (rs.map fun r => r.elements).flatten
  | .multiPolygon ps => (ps.map fun poly => (poly.map fun r => r.elements).flatten).flatten
  | .geometryCollection gs => VtGeometry.pointsList gs

/-- Points of the members of a `GeometryCollection`, in order. -/
def VtGeometry.pointsList : List VtGeometry → List VtPoint
  | [] => []
  | g :: gs => g.points ++ VtGeometry.pointsList gs

end

mutual

/-- Apply `f` to every point of a geometry
(the mutating traversal of `iter_each_point`). -/
def VtGeometry.mapPoints (f : VtPoint → VtPoint) : VtGeometry → VtGeometry
  | .point p => .point (f p)
  | .multiPoint ps => .multiPoint (ps.map f)
  | .lineString l => .lineString { l with elements := l.elements.map f }
  | .multiLineString ls =>
      .multiLineString (ls.map fun l => { l with elements := l.elements.map f })
  | .polygon rs => .polygon (rs.map fun r => { r with elements := r.elements.map f })
  | .multiPolygon ps =>
      .multiPolygon (ps.map fun poly => poly.map fun r => { r with elements := r.elements.map f })
  | .geometryCollection gs => .geometryCollection (VtGeometry.mapPointsList f gs)

def VtGeometry.mapPointsList (f : VtPoint → VtPoint) : List VtGeometry → List VtGeometry
  | [] => []
  | g :: gs => g.mapPoints f :: VtGeometry.mapPointsList f gs

end

/-- `types.rs` `BBox` when all four fields are finite (a feature's bbox is
`None` exactly when the default infinite box survives, i.e. the geometry has
no point). -/
structure BBoxQ where
  min_x : ℚ
  min_y : ℚ
  max_x : ℚ
  max_y : ℚ
  deriving DecidableEq, Repr

def BBoxQ.addPoint (b : BBoxQ) (p : VtPoint) : BBoxQ :=
  { min_x := min b.min_x p.x, min_y := min b.min_y p.y
    max_x := max b.max_x p.x, max_y := max b.max_y p.y }

/-- Fold of `VtFeature::new`'s bbox computation: starting from the default
(infinite) `BBox`, `min`/`max` against each point; the result is `none` iff
no point was seen (`bbox.is_empty()`). -/
def bboxOfPoints : List VtPoint → Option BBoxQ
  | [] => none
  | p :: ps => some (ps.foldl BBoxQ.addPoint ⟨p.x, p.y, p.x, p.y⟩)

/-- `types.rs` `VtFeature` (id and properties dropped: no claim inspects
them). -/
structure VtFeature where
  geometry : VtGeometry
  bbox : Option BBoxQ
  point_count : ℕ

/-- `types.rs` `VtFeature::new`: recompute bbox and point count from the
geometry. -/
def VtFeature.new (g : VtGeometry) : VtFeature :=
  ⟨g, bboxOfPoints g.points, g.points.length⟩

/-- An `f64` that may be one of the infinities (used only by the default
`BBox` of an `InternalTile`, whose fields start at `±∞`). -/
inductive XQ where
  | ninf
  | fin (q : ℚ)
  | pinf
  deriving DecidableEq, Repr

/-- `min_all >= k1` comparison with a possibly-infinite left operand. -/
def XQ.geQ : XQ → ℚ → Bool
  | .ninf, _ => false
  | .fin q, k => k ≤ q
  | .pinf, _ => true

/-- `max_all <= k2`. -/
def XQ.leQ : XQ → ℚ → Bool
  | .ninf, _ => true
  | .fin q, k => q ≤ k
  | .pinf, _ => false

/-- `max_all < k1`. -/
def XQ.ltQ : XQ → ℚ → Bool
  | .ninf, _ => true
  | .fin q, k => q < k
  | .pinf, _ => false

/-- `min_all > k2`. -/
def XQ.gtQ : XQ → ℚ → Bool
  | .ninf, _ => false
  | .fin q, k => k < q
  | .pinf, _ => true

def XQ.minF : XQ → ℚ → XQ
  | .ninf, _ => .ninf
  | .fin q, k => .fin (min q k)
  | .pinf, k => .fin k

def XQ.maxF : XQ → ℚ → XQ
  | .ninf, k => .fin k
  | .fin q, k => .fin (max q k)
  | .pinf, _ => .pinf

/-- The default `BBox` of `types.rs` (fields at `±∞`), as kept by an
`InternalTile` and merged with the finite bboxes of its source features. -/
structure XBBox where
  min_x : XQ
  min_y : XQ
  max_x : XQ
  max_y : XQ
  deriving DecidableEq, Repr

def XBBox.default : XBBox := ⟨.pinf, .pinf, .ninf, .ninf⟩

/-- `BBox::merge` of a feature's (finite) bbox into the tile's bbox. -/
def XBBox.merge (b : XBBox) (o : BBoxQ) : XBBox :=
  { min_x := b.min_x.minF o.min_x, min_y := b.min_y.minF o.min_y
    max_x := b.max_x.maxF o.max_x, max_y := b.max_y.maxF o.max_y }

/-- Clipping axis (`I = 0` is x, `I = 1` is y in the Rust const generics). -/
inductive Axis where
  | x0
  | y1
  deriving DecidableEq, Repr

/-- `types.rs` `get_coordinate::<I>`. -/
def VtPoint.coord : Axis → VtPoint → ℚ
  | .x0, p => p.x
  | .y1, p => p.y

/-- `types.rs` `get_bbox_range::<I>`. -/
def BBoxQ.range : Axis → BBoxQ → ℚ × ℚ
  | .x0, b => (b.min_x, b.max_x)
  | .y1, b => (b.min_y, b.max_y)

/-- `types.rs` `calc_progress::<I>`.  Division is total in `ℚ`; on every
reachable call the denominator is nonzero because the caller only crosses a
boundary when `a` and `b` classify differently against the strip, which
forces their axis coordinates apart. -/
def calcProgress (ax : Axis) (a b : VtPoint) (v : ℚ) : ℚ :=
  match ax with
  | .x0 => (v - a.x) / (b.x - a.x)
  | .y1 => (v - a.y) / (b.y - a.y)

/-- `types.rs` `intersect::<I>`: clip-generated point, `z = 1`. -/
def intersectPt (ax : Axis) (a b : VtPoint) (v t : ℚ) : VtPoint :=
  match ax with
  | .x0 => ⟨v, a.y + t * (b.y - a.y), 1⟩
  | .y1 => ⟨a.x + t * (b.x - a.x), v, 1⟩

/-! ## Tile builder (`tile.rs`) -/

/-- Rust `f64::round`: round half away from zero.  The transformed tile
coordinates are integral, so we keep them as `ℤ`. -/
def roundQ (q : ℚ) : ℤ :=
  if 0 ≤ q then ⌊q + 1 / 2⌋ else ⌈q - 1 / 2⌉

/-- The fields of `InternalTile` consumed by the coordinate transform and the
tolerance filters.  `z2 = (1u32 << z) as f64` is `2 ^ z` (the crate only
shifts with `z ≤ 24` on paths reached from the public interface). -/
structure TileCfg where
  x : ℕ
  y : ℕ
  z2 : ℚ
  extent : ℚ
  tolerance : ℚ
  sq_tolerance : ℚ
  line_metrics : Bool
  deriving DecidableEq, Repr

/-- `InternalTile::transform_point` (the `simplified_count += 1` side effect
is recovered below: the counter equals the number of produced positions). -/
def transformPoint (c : TileCfg) (p : VtPoint) : ℤ × ℤ :=
  (roundQ ((p.x * c.z2 - (c.x : ℚ)) * c.extent), roundQ ((p.y * c.z2 - (c.y : ℚ)) * c.extent))

/-- `InternalTile::transform_line_string`. -/
def transformLineString (c : TileCfg) (l : VtLineString) : List (ℤ × ℤ) :=
  if l.dist < c.tolerance then []
  else (l.elements.filter fun p => c.tolerance < p.z).map (transformPoint c)

/-- `InternalTile::transform_line_ring`. -/
def transformLineRing (c : TileCfg) (r : VtLinearRing) : List (ℤ × ℤ) :=
  if r.area < c.sq_tolerance then []
  else (r.elements.filter fun p => c.sq_tolerance < p.z).map (transformPoint c)

/-- `InternalTile::transform_polygon`: keep exactly the rings with
`area > sq_tolerance` and transform each. -/
def transformPolygon (c : TileCfg) (rs : List VtLinearRing) : List (List (ℤ × ℤ)) :=
  (rs.filter fun r => c.sq_tolerance < r.area).map (transformLineRing c)

/-- Geometry of an emitted (tile-local) feature.  The emitted GeoJSON
features' ids/properties (including the `mapbox_clip_start`/`mapbox_clip_end`
properties) are payload that no claim inspects and are dropped. -/
inductive OutGeometry where
  | point (p : ℤ × ℤ)
  | multiPoint (ps : List (ℤ × ℤ))
  | lineString (ps : List (ℤ × ℤ))
  | multiLineString (ls : List (List (ℤ × ℤ)))
  | polygon (rs : List (List (ℤ × ℤ)))
  | multiPolygon (ps : List (List (List (ℤ × ℤ))))
  deriving DecidableEq, Repr

/-- Number of positions of an emitted geometry. -/
def outPosCount : OutGeometry → ℕ
  | .point _ => 1
  | .multiPoint ps => ps.length
  | .lineString ps => ps.length
  | .multiLineString ls => (ls.map List.length).sum
  | .polygon rs => (rs.map List.length).sum
  | .multiPolygon ps => (ps.map fun poly => (poly.map List.length).sum).sum

mutual

/-- `InternalTile::add_feature` and the `add_*` helpers it dispatches to:
the list of features pushed onto the tile for one source geometry.
The `match len() {0, 1, _}` collapses of the Rust code are the list pattern
matches. -/
def addFeature (c : TileCfg) : VtGeometry → List OutGeometry
  | .point p => [.point (transformPoint c p)]
  | .multiPoint ps =>
      match ps.map (transformPoint c) with
      | [] => []
      | [q] => [.point q]
      | qs => [.multiPoint qs]
  | .lineString l =>
      let cs := transformLineString c l
      if cs.isEmpty then [] else [.lineString cs]
  | .multiLineString ls =>
      match (ls.filter fun l => c.tolerance < l.dist).map (transformLineString c) with
      | [] => []
      | [q] => [.lineString q]
      | qs => [.multiLineString qs]
  | .polygon rs =>
      let q := transformPolygon c rs
      if q.isEmpty then [] else [.polygon q]
  | .multiPolygon ps =>
      match (ps.map (transformPolygon c)).filter (fun q => !q.isEmpty) with
      | [] => []
      | [q] => [.polygon q]
      | qs => [.multiPolygon qs]
  | .geometryCollection gs => addFeatureList c gs

/-- `InternalTile::add_geometry_collection`: recurse on the members. -/
def addFeatureList (c : TileCfg) : List VtGeometry → List OutGeometry
  | [] => []
  | g :: gs => addFeature c g ++ addFeatureList c gs

end

/-- `tile.rs` `Tile`.  `simplified_count` in the Rust code is incremented by
`transform_point`, i.e. once per produced position; no nonempty position
list is ever discarded by the `add_*` helpers (they drop only empty lists),
so the final counter equals the total position count of the pushed features
plus the positions of empty member lists, which contribute zero either
way. -/
structure Tile where
  features : List OutGeometry
  point_count : ℕ
  simplified_count : ℕ
  deriving DecidableEq, Repr

/-- `tile.rs` `EMPTY_TILE`. -/
def emptyTile : Tile := ⟨[], 0, 0⟩

/-- `tile.rs` `InternalTile` (fields consumed by later stages). -/
structure ITile where
  z : ℕ
  x : ℕ
  y : ℕ
  tile : Tile
  source : List VtFeature
  bbox : XBBox

/-- `InternalTile::new`: fold the source features into the output tile,
accumulating `point_count`, the emitted features, `simplified_count` and the
tile bbox. -/
def ITile.new (fs : List VtFeature) (z x y extent : ℕ) (tolerance : ℚ) (lm : Bool) : ITile :=
  let c : TileCfg := ⟨x, y, 2 ^ z, (extent : ℚ), tolerance, tolerance * tolerance, lm⟩
  let step : Tile × XBBox → VtFeature → Tile × XBBox := fun acc f =>
    let emitted := addFeature c f.geometry
    (⟨acc.1.features ++ emitted,
      acc.1.point_count + f.point_count,
      acc.1.simplified_count + (emitted.map outPosCount).sum⟩,
     match f.bbox with
     | some b => acc.2.merge b
     | none => acc.2)
  let r := fs.foldl step (⟨[], 0, 0⟩, XBBox.default)
  ⟨z, x, y, r.1, [], r.2⟩

/-! ## Clipper (`clip.rs`)

`hp` is the parameter standing for `f64::hypot` (only consulted when
`line_metrics` is on). -/

/-- `Clipper::new_slice`. -/
def newSlice (lm : Bool) (line : VtLineString) : VtLineString :=
  if lm then ⟨[], line.dist, line.seg_start, line.seg_end⟩ else ⟨[], line.dist, 0, 0⟩

/-- The window loop of `Clipper::clip_line`: walk consecutive segments
`(a, b)`, maintaining the running original-line length `lineLen`, the slice
under construction and the finished slices.  The Rust
`match (ak < k1, ak > k2, bk < k1, bk > k2)` arms are the `if` chain. -/
def clipLineGo (ax : Axis) (k1 k2 : ℚ) (lm : Bool) (hp : VtPoint → VtPoint → ℚ)
    (tmpl : VtLineString) :
    List VtPoint → ℚ → VtLineString → List VtLineString → List VtLineString
  | a :: b :: rest, lineLen, slice, slices =>
    let seg_len := if lm then hp a b else 0
    let ak := a.coord ax
    let bk := b.coord ax
    let isLast := rest.isEmpty
    let lineLen' := if lm then lineLen + seg_len else lineLen
    if (ak < k1 ∧ bk < k1) ∨ (k2 < ak ∧ k2 < bk) then
      clipLineGo ax k1 k2 lm hp tmpl (b :: rest) lineLen' slice slices
    else if ¬ak < k1 ∧ ¬k2 < ak ∧ ¬bk < k1 ∧ ¬k2 < bk then
      let slice := { slice with elements := slice.elements ++ [a] }
      let slice := if lm ∧ isLast then { slice with seg_end := lineLen + seg_len } else slice
      if isLast then slices ++ [{ slice with elements := slice.elements ++ [b] }]
      else clipLineGo ax k1 k2 lm hp tmpl (b :: rest) lineLen' slice slices
    else
      let enter := if ak < k1 then k1 else if k2 < ak then k2 else ak
      let exitv := if k2 < bk then k2 else if bk < k1 then k1 else bk
      let tEnter := calcProgress ax a b enter
      let tExit := calcProgress ax a b exitv
      let p1 := intersectPt ax a b enter tEnter
      let p2 := intersectPt ax a b exitv tExit
      let slice := { slice with elements := slice.elements ++ [p1] }
      let slice :=
        if enter ≠ ak ∧ lm then { slice with seg_start := lineLen + seg_len * tEnter } else slice
      if exitv = bk then
        let slice := if lm then { slice with seg_end := lineLen + seg_len * tExit } else slice
        if isLast then slices ++ [{ slice with elements := slice.elements ++ [b] }]
        else clipLineGo ax k1 k2 lm hp tmpl (b :: rest) lineLen' slice slices
      else
        let slice := if lm then { slice with seg_end := lineLen + seg_len * tExit } else slice
        let slice := { slice with elements := slice.elements ++ [p2] }
        clipLineGo ax k1 k2 lm hp tmpl (b :: rest) lineLen' (newSlice lm tmpl) (slices ++ [slice])
  | _, _, _, slices => slices

/-- `Clipper::clip_line`: slices of one line; the caller's `slices`
accumulator is the concatenation over lines. -/
def clipLine (ax : Axis) (k1 k2 : ℚ) (lm : Bool) (hp : VtPoint → VtPoint → ℚ)
    (line : VtLineString) : List VtLineString :=
  if line.elements.length < 2 then []
  else clipLineGo ax k1 k2 lm hp line line.elements line.seg_start (newSlice lm line) []

/-- The window loop of `Clipper::clip_ring`.  `lastIdx` is the `len - 1` of
the Rust code; the guard `i == len - 1` is compared against window indices
`0 .. len - 2`. -/
def clipRingGo (ax : Axis) (k1 k2 : ℚ) (lastIdx : ℕ) :
    ℕ → List VtPoint → List VtPoint → List VtPoint
  | i, a :: b :: rest, acc =>
    let ak := a.coord ax
    let bk := b.coord ax
    let isLast := i = lastIdx
    let acc :=
      if ak < k1 then
        let acc := if k1 < bk then acc ++ [intersectPt ax a b k1 (calcProgress ax a b k1)] else acc
        if k2 < bk then acc ++ [intersectPt ax a b k2 (calcProgress ax a b k2)]
        else if isLast then acc ++ [b]
        else acc
      else if k2 < ak then
        let acc := if bk < k2 then acc ++ [intersectPt ax a b k2 (calcProgress ax a b k2)] else acc
        if bk < k1 then acc ++ [intersectPt ax a b k1 (calcProgress ax a b k1)]
        else if isLast then acc ++ [b]
        else acc
      else
        let acc := acc ++ [a]
        if bk < k1 then acc ++ [intersectPt ax a b k1 (calcProgress ax a b k1)]
        else if k2 < bk then acc ++ [intersectPt ax a b k2 (calcProgress ax a b k2)]
        else acc
    clipRingGo ax k1 k2 lastIdx (i + 1) (b :: rest) acc
  | _, _, acc => acc

/-- Ring closure after the walk: if the accumulated slice is nonempty and its
first and last points differ, append the first. -/
def closeRing (acc : List VtPoint) : List VtPoint :=
  match acc.head?, acc.getLast? with
  | some f, some l => if f ≠ l then acc ++ [f] else acc
  | _, _ => acc

/-- `Clipper::clip_ring`. -/
def clipRing (ax : Axis) (k1 k2 : ℚ) (ring : VtLinearRing) : Option VtLinearRing :=
  if ring.elements.length < 2 then none
  else
    let acc := closeRing (clipRingGo ax k1 k2 (ring.elements.length - 1) 0 ring.elements [])
    if acc.length < 3 then none else some ⟨acc, ring.area⟩

mutual

/-- The ring walk as the specification describes it: the last-segment test
holds on the final window (index `len - 2`), so the endpoint `b` is emitted
when the ring's last segment ends inside the strip.  This is the
specification-side definition for the refinement comparison with
`clipRingGo` (whose guard compares the window index against `len - 1`). -/
def clipRingGoSpec (ax : Axis) (k1 k2 : ℚ) : List VtPoint → List VtPoint → List VtPoint
  | a :: b :: rest, acc =>
    let ak := a.coord ax
    let bk := b.coord ax
    let isLast := rest.isEmpty
    let acc :=
      if ak < k1 then
        let acc := if k1 < bk then acc ++ [intersectPt ax a b k1 (calcProgress ax a b k1)] else acc
        if k2 < bk then acc ++ [intersectPt ax a b k2 (calcProgress ax a b k2)]
        else if isLast then acc ++ [b]
        else acc
      else if k2 < ak then
        let acc := if bk < k2 then acc ++ [intersectPt ax a b k2 (calcProgress ax a b k2)] else acc
        if bk < k1 then acc ++ [intersectPt ax a b k1 (calcProgress ax a b k1)]
        else if isLast then acc ++ [b]
        else acc
      else
        let acc := acc ++ [a]
        if bk < k1 then acc ++ [intersectPt ax a b k1 (calcProgress ax a b k1)]
        else if k2 < bk then acc ++ [intersectPt ax a b k2 (calcProgress ax a b k2)]
        else acc
    clipRingGoSpec ax k1 k2 (b :: rest) acc
  | _, acc => acc

/-- `clip_ring` as the specification describes it (emitting `b` on the last
segment when it lies inside). -/
def clipRingSpec (ax : Axis) (k1 k2 : ℚ) (ring : VtLinearRing) : Option VtLinearRing :=
  if ring.elements.length < 2 then none
  else
    let acc := closeRing (clipRingGoSpec ax k1 k2 ring.elements [])
    if acc.length < 3 then none else some ⟨acc, ring.area⟩

/-- The ring walk with the two (unreachable) last-segment branches removed:
the walk `clipRingGo` actually performed by the code agrees with this
everywhere, because window indices stop at `len - 2` while the guard tests
`len - 1`. -/
def clipRingGoPlain (ax : Axis) (k1 k2 : ℚ) : List VtPoint → List VtPoint → List VtPoint
  | a :: b :: rest, acc =>
    let ak := a.coord ax
    let bk := b.coord ax
    let acc :=
      if ak < k1 then
        let acc := if k1 < bk then acc ++ [intersectPt ax a b k1 (calcProgress ax a b k1)] else acc
        if k2 < bk then acc ++ [intersectPt ax a b k2 (calcProgress ax a b k2)]
        else acc
      else if k2 < ak then
        let acc := if bk < k2 then acc ++ [intersectPt ax a b k2 (calcProgress ax a b k2)] else acc
        if bk < k1 then acc ++ [intersectPt ax a b k1 (calcProgress ax a b k1)]
        else acc
      else
        let acc := acc ++ [a]
        if bk < k1 then acc ++ [intersectPt ax a b k1 (calcProgress ax a b k1)]
        else if k2 < bk then acc ++ [intersectPt ax a b k2 (calcProgress ax a b k2)]
        else acc
    clipRingGoPlain ax k1 k2 (b :: rest) acc
  | _, acc => acc

/-- `clip_ring` with the dead branches removed (same closure and length
checks). -/
def clipRingPlain (ax : Axis) (k1 k2 : ℚ) (ring : VtLinearRing) : Option VtLinearRing :=
  if ring.elements.length < 2 then none
  else
    let acc := closeRing (clipRingGoPlain ax k1 k2 ring.elements [])
    if acc.length < 3 then none else some ⟨acc, ring.area⟩

/-- `Clipper::clip_geometry`. -/
def clipGeometry (ax : Axis) (k1 k2 : ℚ) (lm : Bool) (hp : VtPoint → VtPoint → ℚ) :
    VtGeometry → Option VtGeometry
  | .point p => if p.coord ax < k1 ∨ k2 < p.coord ax then none else some (.point p)
  | .multiPoint ps =>
      let kept := ps.filter fun p => ¬(p.coord ax < k1 ∨ k2 < p.coord ax)
      if kept.isEmpty then none else some (.multiPoint kept)
  | .lineString l =>
      match clipLine ax k1 k2 lm hp l with
      | [] => none
      | [s] => some (.lineString s)
      | parts => some (.multiLineString parts)
  | .multiLineString ls =>
      match (ls.map (clipLine ax k1 k2 lm hp)).flatten with
      | [] => none
      | [s] => some (.lineString s)
      | parts => some (.multiLineString parts)
  | .polygon rs =>
      let parts := rs.filterMap (clipRing ax k1 k2)
      if parts.isEmpty then none else some (.polygon parts)
  | .multiPolygon ps =>
      let parts :=
        (ps.map fun poly => poly.filterMap (clipRing ax k1 k2)).filter fun part => !part.isEmpty
      if parts.isEmpty then none else some (.multiPolygon parts)
  | .geometryCollection gs =>
      let parts := clipGeometryList ax k1 k2 lm hp gs
      if parts.isEmpty then none else some (.geometryCollection parts)

/-- `Clipper::clip_geometry_collection`: clip each member, dropping empty
results. -/
def clipGeometryList (ax : Axis) (k1 k2 : ℚ) (lm : Bool) (hp : VtPoint → VtPoint → ℚ) :
    List VtGeometry → List VtGeometry
  | [] => []
  | g :: gs =>
      match clipGeometry ax k1 k2 lm hp g with
      | some v => v :: clipGeometryList ax k1 k2 lm hp gs
      | none => clipGeometryList ax k1 k2 lm hp gs

end

/-- The per-feature body of `clip::clip` (the `for feature in features`
loop).  `none` models the panic of `feature.bbox.as_ref().unwrap()` on a
feature without a bbox. -/
def clipStep (ax : Axis) (k1 k2 : ℚ) (lm : Bool) (hp : VtPoint → VtPoint → ℚ)
    (acc : Option (List VtFeature)) (f : VtFeature) : Option (List VtFeature) :=
  acc.bind fun out =>
    match f.bbox with
    | none => none
    | some bb =>
      let mn := (bb.range ax).1
      let mx := (bb.range ax).2
      if k1 ≤ mn ∧ mx ≤ k2 then some (out ++ [f])
      else if mx < k1 ∨ k2 < mn then some out
      else
        match clipGeometry ax k1 k2 lm hp f.geometry with
        | none => some out
        | some g =>
          if lm then
            match g with
            | .multiLineString lines =>
                some (out ++ lines.map fun seg => VtFeature.new (.lineString seg))
            | g' => some (out ++ [VtFeature.new g'])
          else some (out ++ [VtFeature.new g])

/-- `clip.rs` `clip::<I>`: the fast paths on the collection-wide bounds, then
the per-feature loop. -/
def clip (ax : Axis) (k1 k2 : ℚ) (minAll maxAll : XQ) (lm : Bool)
    (hp : VtPoint → VtPoint → ℚ) (features : List VtFeature) : Option (List VtFeature) :=
  if minAll.geQ k1 ∧ maxAll.leQ k2 then some features
  else if maxAll.ltQ k1 ∨ minAll.gtQ k2 then some []
  else features.foldl (clipStep ax k1 k2 lm hp) (some [])

/-! ## Simplifier (`simplify.rs`) -/

/-- `simplify.rs` `point_segment_dist` (squared distance from `p` to the
segment `a`–`b`); the division is guarded by `dx ≠ 0 ∨ dy ≠ 0`. -/
def pointSegmentDist (p a b : VtPoint) : ℚ :=
  let dx := b.x - a.x
  let dy := b.y - a.y
  let fp : ℚ × ℚ :=
    if dx ≠ 0 ∨ dy ≠ 0 then
      let t := ((p.x - a.x) * dx + (p.y - a.y) * dy) / (dx * dx + dy * dy)
      if 1 < t then (b.x, b.y)
      else if 0 < t then (a.x + dx * t, a.y + dy * t)
      else (a.x, a.y)
    else (a.x, a.y)
  (p.x - fp.1) * (p.x - fp.1) + (p.y - fp.2) * (p.y - fp.2)

/-- The selection loop of `douglas_peucker` over `i ∈ first+1 .. last`:
returns `(index, max_sq_dist, min_pos_to_mid)`.  `max_sq_dist` starts at
`sq_tolerance`; ties are broken towards the midpoint.  Out-of-range indexing
(impossible on the crate's call sites, where `first < last < len`) is
modelled with a default point. -/
def dpScan (pts : List VtPoint) (first last : ℕ) (sqTol : ℚ) : ℕ × ℚ × ℤ :=
  let d : VtPoint := ⟨0, 0, 0⟩
  let mid : ℤ := ((first : ℤ) + (last : ℤ)) / 2
  let step : ℕ × ℚ × ℤ → ℕ → ℕ × ℚ × ℤ := fun st i =>
    let sq := pointSegmentDist (pts.getD i d) (pts.getD first d) (pts.getD last d)
    if st.2.1 < sq then (i, sq, st.2.2)
    else if sq = st.2.1 then
      let posToMid : ℤ := |(i : ℤ) - mid|
      if posToMid < st.2.2 then (i, st.2.1, posToMid) else st
    else st
  (List.range' (first + 1) (last - (first + 1))).foldl step (0, sqTol, ((last : ℤ) - (first : ℤ)))

/-- `simplify.rs` `douglas_peucker`, with fuel for the recursion (each
recursive call strictly shrinks `last - first`, so fuel `≥ last - first + 1`
reproduces the Rust recursion exactly). -/
def dpRec (sqTol : ℚ) : ℕ → List VtPoint → ℕ → ℕ → List VtPoint
  | 0, pts, _, _ => pts
  | fuel + 1, pts, first, last =>
    let st := dpScan pts first last sqTol
    let index := st.1
    if sqTol < st.2.1 then
      let pts := pts.set index { pts.getD index ⟨0, 0, 0⟩ with z := st.2.1 }
      let pts := if 1 < index - first then dpRec sqTol fuel pts first index else pts
      if 1 < last - index then dpRec sqTol fuel pts index last else pts
    else pts

/-- Set the `z` of the point at index `i`. -/
def setZ (pts : List VtPoint) (i : ℕ) (v : ℚ) : List VtPoint :=
  pts.set i { pts.getD i ⟨0, 0, 0⟩ with z := v }

/-- `simplify.rs` `simplify`.  In the Rust code `let len = points.len() - 1;`
precedes the emptiness check, so the `usize` subtraction underflows on an
empty slice — a panic under debug overflow checks, a wrap in release, and the
value is unused either way; the embedding uses the (equally unused)
truncated subtraction. -/
def simplifyList (pts : List VtPoint) (tolerance : ℚ) : List VtPoint :=
  if pts.isEmpty then pts
  else
    let len := pts.length - 1
    let pts := setZ pts 0 1
    let pts := setZ pts len 1
    dpRec (tolerance * tolerance) pts.length pts 0 len

/-! ## Projection / conversion (`convert.rs`)

`lng_to_mercator_x` is exactly rational; `lat_to_mercator_y` (sin/ln) is the
parameter `projY`. -/

/-- `convert.rs` `lng_to_mercator_x`. -/
def projX (lng : ℚ) : ℚ := lng / 360 + 1 / 2

/-- `convert.rs` `convert_coords`.  A GeoJSON position is its list of
numbers; the code reads `coords[0]` and `coords[1]`, an index panic on
positions shorter than two entries — the §6 interface requires
`[lon, lat, …]`, and the embedding totalises the read with a default. -/
def convertCoords (projY : ℚ → ℚ) (coords : List ℚ) : VtPoint :=
  ⟨projX (coords.getD 0 0), projY (coords.getD 1 0), 0⟩

/-- Sum of a function of consecutive pairs (the `windows(2)` accumulations of
`convert.rs`). -/
def pairwiseSum (f : VtPoint → VtPoint → ℚ) : List VtPoint → ℚ
  | a :: b :: rest => f a b + pairwiseSum f (b :: rest)
  | _ => 0

/-- `convert.rs` `convert_line_string`. -/
def convertLineString (projY : ℚ → ℚ) (hp : VtPoint → VtPoint → ℚ)
    (coords : List (List ℚ)) (tolerance : ℚ) : VtLineString :=
  let elements := coords.map (convertCoords projY)
  let dist := pairwiseSum hp elements
  ⟨simplifyList elements tolerance, dist, 0, 0⟩

/-- `convert.rs` `convert_line_ring` (`area` is the absolute half shoelace
sum of the unsimplified ring). -/
def convertLineRing (projY : ℚ → ℚ) (coords : List (List ℚ)) (tolerance : ℚ) : VtLinearRing :=
  let elements := coords.map (convertCoords projY)
  let area := pairwiseSum (fun a b => a.x * b.y - b.x * a.y) elements
  ⟨simplifyList elements tolerance, |area / 2|⟩

/-- Parsed GeoJSON geometry (`geojson::Value`), coordinates only. -/
inductive GJGeometry where
  | point (coords : List ℚ)
  | multiPoint (coords : List (List ℚ))
  | lineString (coords : List (List ℚ))
  | multiLineString (coords : List (List (List ℚ)))
  | polygon (coords : List (List (List ℚ)))
  | multiPolygon (coords : List (List (List (List ℚ))))
  | geometryCollection (gs : List GJGeometry)

mutual

/-- `convert.rs` `convert_geometry`: `none` exactly on a top-level empty
coordinate array (and on a `GeometryCollection` whose members all convert to
`none`). -/
def convertGeometry (projY : ℚ → ℚ) (hp : VtPoint → VtPoint → ℚ) (tolerance : ℚ) :
    GJGeometry → Option VtGeometry
  | .point cs => if cs.isEmpty then none else some (.point (convertCoords projY cs))
  | .multiPoint cs =>
      if cs.isEmpty then none else some (.multiPoint (cs.map (convertCoords projY)))
  | .lineString cs =>
      if cs.isEmpty then none
      else some (.lineString (convertLineString projY hp cs tolerance))
  | .multiLineString cs =>
      if cs.isEmpty then none
      else some (.multiLineString (cs.map fun c => convertLineString projY hp c tolerance))
  | .polygon cs =>
      if cs.isEmpty then none
      else some (.polygon (cs.map fun c => convertLineRing projY c tolerance))
  | .multiPolygon cs =>
      if cs.isEmpty then none
      else some (.multiPolygon (cs.map fun poly => poly.map fun c => convertLineRing projY c tolerance))
  | .geometryCollection gs =>
      let parts := convertGeometryList projY hp tolerance gs
      if parts.isEmpty then none else some (.geometryCollection parts)

/-- Conversion of `GeometryCollection` members (the inner `filter_map`). -/
def convertGeometryList (projY : ℚ → ℚ) (hp : VtPoint → VtPoint → ℚ) (tolerance : ℚ) :
    List GJGeometry → List VtGeometry
  | [] => []
  | g :: gs =>
      match convertGeometry projY hp tolerance g with
      | some v => v :: convertGeometryList projY hp tolerance gs
      | none => convertGeometryList projY hp tolerance gs

end

/-- A parsed GeoJSON feature (ids and properties dropped). -/
structure GJFeature where
  geometry : Option GJGeometry

/-- `convert.rs` `convert`: skip features without geometry, drop features
whose geometry converts to `none` (`generate_id` only touches the dropped id
payload). -/
def convert (projY : ℚ → ℚ) (hp : VtPoint → VtPoint → ℚ) (fc : List GJFeature)
    (tolerance : ℚ) : List VtFeature :=
  fc.filterMap fun f =>
    f.geometry.bind fun g => (convertGeometry projY hp tolerance g).map VtFeature.new

/-! ## Wrapper (`wrap.rs`) -/

/-- `wrap.rs` `shift_coords` on one feature. -/
def shiftFeature (offset : ℚ) (f : VtFeature) : VtFeature :=
  { f with
    bbox := f.bbox.map fun b => { b with min_x := b.min_x + offset, max_x := b.max_x + offset }
    geometry := f.geometry.mapPoints fun p => { p with x := p.x + offset } }

/-- `wrap.rs` `wrap`. -/
def wrap (hp : VtPoint → VtPoint → ℚ) (features : List VtFeature) (buffer : ℚ)
    (lm : Bool) : Option (List VtFeature) :=
  (clip .x0 (-1 - buffer) buffer (.fin (-1)) (.fin 2) lm hp features).bind fun left =>
  (clip .x0 (1 - buffer) (2 + buffer) (.fin (-1)) (.fin 2) lm hp features).bind fun right =>
  if left.isEmpty ∧ right.isEmpty then some features
  else
    (clip .x0 (-buffer) (1 + buffer) (.fin 1) (.fin 2) lm hp features).map fun merged =>
      let merged := if !left.isEmpty then left.map (shiftFeature 1) ++ merged else merged
      if !right.isEmpty then merged ++ right.map (shiftFeature (-1)) else merged

/-! ## Tile index (`geojson_vt.rs`) -/

/-- `geojson_vt.rs` `to_id`: `((1u64 << z) * y + x) * 32 + z` with `u64`
semantics (masked shift, wrapping arithmetic).  For `z ≤ 24` and
`x, y < 2^32` this is the plain value. -/
def toId (z x y : ℕ) : ℕ :=
  ((2 ^ (z % 64) * y + x) * 32 + z) % 2 ^ 64

/-- `geojson_vt.rs` `Options`. -/
structure VTOptions where
  max_zoom : ℕ
  index_max_zoom : ℕ
  index_max_points : ℕ
  tolerance : ℚ
  extent : ℕ
  buffer : ℕ
  line_metrics : Bool
  generate_id : Bool
  deriving DecidableEq, Repr

/-- `Options::default`. -/
def VTOptions.default : VTOptions := ⟨18, 5, 100000, 3, 4096, 64, false, false⟩

/-- The `HashMap<u64, InternalTile>` as an association list (keys are unique
because insertion happens only through the vacant-entry check). -/
abbrev Tiles := List (ℕ × ITile)

def lookupTile (ts : Tiles) (k : ℕ) : Option ITile :=
  (ts.find? fun p => p.1 == k).map fun p => p.2

def insertTile (ts : Tiles) (k : ℕ) (it : ITile) : Tiles := (k, it) :: ts

/-- `internal_tile.source_feature = vt_features.to_vec()` on the entry `k`. -/
def setSource (ts : Tiles) (k : ℕ) (fs : List VtFeature) : Tiles :=
  ts.map fun p => if p.1 == k then (p.1, { p.2 with source := fs }) else p

/-- The descend half of `split_tile` (after the stop checks): clear the
retained source, return if `features` is empty, else clip into the four
child buffers and recurse through `recur`. -/
def splitDescend (o : VTOptions) (hp : VtPoint → VtPoint → ℚ)
    (recur : List VtFeature → ℕ → ℕ → ℕ → Tiles → Option Tiles)
    (fs : List VtFeature) (z x y : ℕ) (it : ITile) (ts : Tiles) : Option Tiles :=
  let ts := setSource ts (toId z x y) []
  if fs.isEmpty then some ts
  else
    let z2 : ℚ := 2 ^ z
    let p : ℚ := 1 / 2 * (o.buffer : ℚ) / (o.extent : ℚ)
    let bb := it.bbox
    let xq : ℚ := (x : ℚ)
    let yq : ℚ := (y : ℚ)
    (clip .x0 ((xq - p) / z2) ((xq + 1 / 2 + p) / z2) bb.min_x bb.max_x
        o.line_metrics hp fs).bind fun left =>
    (clip .y1 ((yq - p) / z2) ((yq + 1 / 2 + p) / z2) bb.min_y bb.max_y
        o.line_metrics hp left).bind fun leftTop =>
    (recur leftTop (z + 1) (x * 2) (y * 2) ts).bind fun ts =>
    (clip .y1 ((yq + 1 / 2 - p) / z2) ((yq + 1 + p) / z2) bb.min_y bb.max_y
        o.line_metrics hp left).bind fun leftBottom =>
    (recur leftBottom (z + 1) (x * 2) (y * 2 + 1) ts).bind fun ts =>
    (clip .x0 ((xq + 1 / 2 - p) / z2) ((xq + 1 + p) / z2) bb.min_x bb.max_x
        o.line_metrics hp fs).bind fun right =>
    (clip .y1 ((yq - p) / z2) ((yq + 1 / 2 + p) / z2) bb.min_y bb.max_y
        o.line_metrics hp right).bind fun rightTop =>
    (recur rightTop (z + 1) (x * 2 + 1) (y * 2) ts).bind fun ts =>
    (clip .y1 ((yq + 1 / 2 - p) / z2) ((yq + 1 + p) / z2) bb.min_y bb.max_y
        o.line_metrics hp right).bind fun rightBottom =>
    recur rightBottom (z + 1) (x * 2 + 1) (y * 2 + 1) ts

/-- `GeoJSONVT::split_tile`, with fuel for the recursion on `z`.  Build-mode
recursion (`cz = 0`) stops exactly at `z = index_max_zoom` and on-demand
recursion stops at `z = max_zoom` (or earlier), so the fuels used below
(`index_max_zoom + 1` and `max_zoom + 1`) are never exhausted. -/
def splitTile (o : VTOptions) (hp : VtPoint → VtPoint → ℚ) :
    ℕ → List VtFeature → ℕ → ℕ → ℕ → ℕ → ℕ → ℕ → Tiles → Option Tiles
  | 0, _, _, _, _, _, _, _, ts => some ts
  | fuel + 1, fs, z, x, y, cz, cx, cy, ts =>
    let id := toId z x y
    let ts :=
      if (lookupTile ts id).isSome then ts
      else
        let tol : ℚ :=
          if z = o.max_zoom then 0 else o.tolerance / ((2 ^ z : ℚ) * (o.extent : ℚ))
        insertTile ts id (ITile.new fs z x y o.extent tol o.line_metrics)
    match lookupTile ts id with
    | none => none
    | some it =>
      let recur := fun fs' z' x' y' ts' => splitTile o hp fuel fs' z' x' y' cz cx cy ts'
      if cz = 0 then
        if z = o.index_max_zoom ∨ it.tile.point_count ≤ o.index_max_points then
          some (setSource ts id fs)
        else splitDescend o hp recur fs z x y it ts
      else if z = o.max_zoom then some ts
      else if z = cz then some (setSource ts id fs)
      else
        let m : ℕ := 2 ^ (cz - z)
        if x ≠ cx / m ∨ y ≠ cy / m then some (setSource ts id fs)
        else splitDescend o hp recur fs z x y it ts

/-- The loop of `GeoJSONVT::find_parent`: walk upward halving `x`, `y` until
a stored tile is found; `none` once `z` reaches 0 without a hit. -/
def findParentGo (ts : Tiles) : ℕ → ℕ → ℕ → Option ITile
  | 0, _, _ => none
  | z0 + 1, x0, y0 =>
    match lookupTile ts (toId z0 (x0 / 2) (y0 / 2)) with
    | some p => some p
    | none => findParentGo ts z0 (x0 / 2) (y0 / 2)

/-- `geojson_vt.rs` `GeoJSONVT` (the `stats`/`total`/`tile_coords`
bookkeeping is dropped). -/
structure VTState where
  options : VTOptions
  tiles : Tiles

/-- `GeoJSONVT::tile` (`getTile`): `none` models the two panics (requested
zoom above `max_zoom`, and `find_parent(..).unwrap()` on `None`), plus any
panic inside `split_tile`.  `x` and `y` pass through the `u32` parameter
types. -/
def tileCall (hp : VtPoint → VtPoint → ℚ) (s : VTState) (z x y : ℕ) : Option (Tile × VTState) :=
  if s.options.max_zoom < z then none
  else
    let z2 := 2 ^ z
    let xw := x % 2 ^ 32
    let yw := y % 2 ^ 32
    let xn := (xw % z2 + z2) % z2
    let id := toId z xn yw
    match lookupTile s.tiles id with
    | some it => some (it.tile, s)
    | none =>
      match findParentGo s.tiles z xn yw with
      | none => none
      | some parent =>
        (splitTile s.options hp (s.options.max_zoom + 1) parent.source parent.z parent.x
            parent.y z xn yw s.tiles).map fun ts =>
          (match lookupTile ts id with
           | some it => it.tile
           | none => emptyTile,
           ⟨s.options, ts⟩)

/-- `GeoJSONVT::new`: `none` models the `assert!` on `max_zoom` and any
panic in the wrap/split pipeline. -/
def VTnew (projY : ℚ → ℚ) (hp : VtPoint → VtPoint → ℚ) (o : VTOptions)
    (fc : List GJFeature) : Option VTState :=
  if ¬(0 < o.max_zoom ∧ o.max_zoom ≤ 24) then none
  else
    let buffer : ℚ := (o.buffer : ℚ) / (o.extent : ℚ)
    let tolerance : ℚ := o.tolerance / (o.extent : ℚ) / ((2 ^ o.max_zoom : ℚ))
    let vt := convert projY hp fc tolerance
    (wrap hp vt buffer o.line_metrics).bind fun vt =>
    (splitTile o hp (o.index_max_zoom + 1) vt 0 0 0 0 0 0 []).map fun ts =>
      ⟨o, ts⟩

/-! ## Predicates and concrete instances used by the claims -/

/-- A feature's recorded `point_count` dominates its actual vertex count
(`VtFeature::new` establishes equality; clipping re-establishes it). -/
def cvle (f : VtFeature) : Prop := f.geometry.points.length ≤ f.point_count

/-- The feature has a bbox (equivalently at least one point); the per-feature
loop of `clip` unwraps it. -/
def hasBB (f : VtFeature) : Prop := f.bbox.isSome

/-- Invariant of one stored tile: the output tile counts satisfy
`simplified_count ≤ point_count`, and every retained source feature has a
dominating `point_count`. -/
def tileInv (it : ITile) : Prop :=
  it.tile.simplified_count ≤ it.tile.point_count ∧ ∀ f ∈ it.source, cvle f

/-- Invariant of the tile map. -/
def tilesInv (ts : Tiles) : Prop := ∀ p ∈ ts, tileInv p.2

/-- All retained source features of all tiles have bboxes (needed for the
clip stage of later on-demand splits not to panic). -/
def tilesBB (ts : Tiles) : Prop := ∀ p ∈ ts, ∀ f ∈ p.2.source, hasBB f

/-- The root tile `(0,0,0)` is stored. -/
def rootPresent (ts : Tiles) : Prop := (lookupTile ts (toId 0 0 0)).isSome

mutual

/-- Top-level emptiness of a parsed geometry: the exact condition under which
`convert_geometry` yields `None` (for a `GeometryCollection`: all members
are empty in this sense). -/
def emptyTop : GJGeometry → Bool
  | .point cs => cs.isEmpty
  | .multiPoint cs => cs.isEmpty
  | .lineString cs => cs.isEmpty
  | .multiLineString cs => cs.isEmpty
  | .polygon cs => cs.isEmpty
  | .multiPolygon cs => cs.isEmpty
  | .geometryCollection gs => emptyTopList gs

def emptyTopList : List GJGeometry → Bool
  | [] => true
  | g :: gs => emptyTop g && emptyTopList gs

end

/-- Extract the element counts of a `MultiLineString` geometry. -/
def lineElemCounts : VtGeometry → Option (List ℕ)
  | .multiLineString ls => some (ls.map fun l => l.elements.length)
  | _ => none

/-- Stand-in for `hypot` when line metrics are off (the value is never
consumed on those paths). -/
def hpZero : VtPoint → VtPoint → ℚ := fun _ _ => 0

/-- A rational instance of the latitude projection parameter, mapping the
example latitudes 0, ±45 to 1/2, 1/2 ± 1/8 (all within the projection's
range [0,1]). -/
def projYLin : ℚ → ℚ := fun lat => 1 / 2 + lat / 360

/-- A ring whose (original) area 1 is at most the example `sq_tolerance`. -/
def cexRingSmall : VtLinearRing := ⟨[⟨0, 0, 2⟩, ⟨1, 0, 2⟩, ⟨0, 1, 2⟩, ⟨0, 0, 2⟩], 1⟩

/-- A hole ring with area 5 above the example `sq_tolerance`. -/
def cexRingBig : VtLinearRing := ⟨[⟨0, 0, 2⟩, ⟨3, 0, 2⟩, ⟨0, 3, 2⟩, ⟨0, 0, 2⟩], 5⟩

/-- A polygon feature whose outer ring is dropped by the area filter while
its hole survives. -/
def cexPolyFeature : VtFeature := VtFeature.new (.polygon [cexRingSmall, cexRingBig])

/-- A two-point line of length exactly 2 (its `dist` equals the example tile
tolerance). -/
def cexLine2 : VtLineString := ⟨[⟨0, 0, 1⟩, ⟨2, 0, 1⟩], 2, 0, 0⟩

/-- A `MultiLineString` feature with that single member. -/
def cexMultiLineFeature : VtFeature := VtFeature.new (.multiLineString [cexLine2])

/-- An (unclosed) ring whose last segment goes from outside the strip
`[10, 40]` back inside, exposing the dead last-segment branch of
`clip_ring`. -/
def cexRingOpen : VtLinearRing := ⟨[⟨20, 4, 0⟩, ⟨0, 4, 0⟩, ⟨20, 8, 0⟩], 0⟩

/-- A world-spanning diamond polygon (longitudes ±90, latitudes ±45). -/
def cexWorldFC : List GJFeature :=
  [⟨some (.polygon [[[-90, 0], [0, 45], [90, 0], [0, -45], [-90, 0]]])⟩]

/-- Options with `maxZoom 2`, `indexMaxZoom 0`, `tolerance 1/5`, `extent 1`,
`buffer 0`. -/
def cexOptsSmall : VTOptions := ⟨2, 0, 100000, 1 / 5, 1, 0, false, false⟩

/-- A feature collection whose only feature is a `MultiLineString` with an
empty first member. -/
def cexEmptyMemberFC : List GJFeature := [⟨some (.multiLineString [[], [[0, 0], [10, 0]]])⟩]

/-- The projection+simplification image of `cexWorldFC`'s diamond ring (the
Douglas–Peucker scores `1, 1/64, 1/4, 1/64, 1` and original area `1/16`). -/
def c2ring : VtLinearRing :=
  ⟨[⟨1/4, 1/2, 1⟩, ⟨1/2, 5/8, 1/64⟩, ⟨3/4, 1/2, 1/4⟩, ⟨1/2, 3/8, 1/64⟩, ⟨1/4, 1/2, 1⟩], 1/16⟩

/-- The converted feature for `cexWorldFC`. -/
def c2vt : VtFeature :=
  ⟨.polygon [c2ring], some ⟨1/4, 3/8, 3/4, 5/8⟩, 5⟩

/-- The root tile built from `c2vt` under `cexOptsSmall`: the tile tolerance
at zoom 0 is `1/5`, `sq_tolerance = 1/25`, so the two score-`1/64` vertices
are filtered out and the emitted ring has 3 vertices. -/
def c2itile : ITile :=
  ⟨0, 0, 0, ⟨[.polygon [[(0, 1), (1, 1), (0, 1)]]], 5, 3⟩, [c2vt],
    ⟨.fin (1/4), .fin (3/8), .fin (3/4), .fin (5/8)⟩⟩

def c2tiles : Tiles := [(0, c2itile)]

/-- The root `InternalTile` built from no features. -/
def rootITile : ITile := ⟨0, 0, 0, ⟨[], 0, 0⟩, [], XBBox.default⟩

/-- The state produced by building the index over an empty feature
collection with default options. -/
def emptyBuildState : VTState := ⟨VTOptions.default, [(0, rootITile)]⟩

/-- The invariant claimed for clipped line slices: well-formed metric
bookkeeping relative to the ancestor length `dist`. -/
def segWF (dist : ℚ) (s : VtLineString) : Prop :=
  0 ≤ s.seg_start ∧ s.seg_start ≤ s.seg_end ∧ s.seg_end ≤ dist ∧ s.dist = dist

/-! # Theorems -/

/-- C1 (amended): in the Tile Builder, rings with `area ≤ sq_tolerance` are
dropped and the kept rings are exactly the transforms (with the per-vertex
`z > sq_tolerance` filter) of the rings with `area > sq_tolerance`, in their
original order; the polygon is dropped only when all of its rings are
dropped — a polygon whose outer ring is dropped but with a surviving later
ring is still emitted (with that ring promoted to outer position). -/
theorem c1_polygon_ring_filter (c : TileCfg) (rs : List VtLinearRing) :
    transformPolygon c rs =
      (rs.filter fun r => c.sq_tolerance < r.area).map
        (fun r => (r.elements.filter fun p => c.sq_tolerance < p.z).map (transformPoint c)) ∧
    (addFeature c (.polygon rs) = [] ↔ ∀ r ∈ rs, r.area ≤ c.sq_tolerance) := by
  have hpoly : transformPolygon c rs =
      (rs.filter fun r => c.sq_tolerance < r.area).map
        (fun r => (r.elements.filter fun p => c.sq_tolerance < p.z).map (transformPoint c)) := by
    unfold transformPolygon
    apply List.map_congr_left
    intro r hr
    have hmem := List.of_mem_filter hr
    rw [decide_eq_true_eq] at hmem
    rw [transformLineRing, if_neg (not_lt.mpr (le_of_lt hmem))]
  refine ⟨hpoly, ?_⟩
  show (let q := transformPolygon c rs; if q.isEmpty then [] else [OutGeometry.polygon q]) = [] ↔ _
  simp only [transformPolygon]
  constructor
  · intro h r hr
    by_contra hlt
    rw [not_le] at hlt
    have : r ∈ rs.filter fun r => c.sq_tolerance < r.area :=
      List.mem_filter.mpr ⟨hr, decide_eq_true hlt⟩
    rcases List.exists_mem_of_ne_nil _ (List.ne_nil_of_mem this) with ⟨a, _⟩
    by_cases he : ((rs.filter fun r => c.sq_tolerance < r.area).map (transformLineRing c)).isEmpty
    · rw [List.isEmpty_iff, List.map_eq_nil_iff] at he
      exact (List.ne_nil_of_mem this) he
    · simp only [he, if_neg] at h
      simp at h
  · intro h
    have : (rs.filter fun r => c.sq_tolerance < r.area) = [] := by
      rw [List.filter_eq_nil_iff]
      intro r hr
      rw [decide_eq_true_eq, not_lt]
      exact h r hr
    simp [this]

/-- C1 counterexample: with `tolerance = 1` (so `sq_tolerance = 1`) the
outer ring of `cexPolyFeature` has `area = 1 ≤ sq_tolerance` and is dropped,
yet the built tile still emits the polygon — with the surviving hole as its
only ring — contradicting "whenever the first (outer) ring of a polygon is
dropped the entire polygon is dropped". -/
theorem c1_counterexample :
    cexRingSmall.area ≤ (1 : ℚ) * 1 ∧
    (ITile.new [cexPolyFeature] 0 0 0 1 1 false).tile.features =
      [.polygon [[(0, 0), (3, 0), (0, 3), (0, 0)]]] := by
  constructor
  · norm_num [cexRingSmall]
  · norm_num [ITile.new, cexPolyFeature, cexRingSmall, cexRingBig, VtFeature.new,
      VtGeometry.points, bboxOfPoints, addFeature, transformPolygon, transformLineRing,
      transformPoint, roundQ, BBoxQ.addPoint, XBBox.merge]

/-- C7 (amended): in the Tile Builder, a standalone LineString is dropped
exactly when `dist < tolerance` (given that its first vertex carries the
endpoint score `z = 1` and `tolerance < 1`, so that the endpoint passes the
per-vertex filter), whereas a member of a MultiLineString is dropped exactly
when `dist ≤ tolerance` — the member filter uses the strict comparison
`dist > tolerance`, so a member with `dist = tolerance` is dropped even
though `dist < tolerance` fails; kept lines retain exactly the vertices with
`z > tolerance`, so endpoints pass only because `tolerance < 1`. -/
theorem c7_line_drop (c : TileCfg) (l : VtLineString) (ls : List VtLineString)
    (p0 : VtPoint) (htol : c.tolerance < 1)
    (hhead : l.elements.head? = some p0) (hz : p0.z = 1) :
    (addFeature c (.lineString l) = [] ↔ l.dist < c.tolerance) ∧
    (addFeature c (.multiLineString ls) = [] ↔ ∀ l' ∈ ls, l'.dist ≤ c.tolerance) := by
  constructor
  · simp only [addFeature]
    constructor
    · intro h
      by_contra hnl
      rw [not_lt] at hnl
      have hp0mem : p0 ∈ l.elements := by
        cases hel : l.elements with
        | nil => rw [hel] at hhead; simp at hhead
        | cons a as =>
            rw [hel] at hhead
            simp only [List.head?_cons, Option.some.injEq] at hhead
            rw [hhead]
            exact List.mem_cons_self p0 as
      have hfil : p0 ∈ l.elements.filter fun p => c.tolerance < p.z :=
        List.mem_filter.mpr ⟨hp0mem, decide_eq_true (by rw [hz]; exact htol)⟩
      have hcs : transformLineString c l ≠ [] := by
        rw [transformLineString, if_neg (not_lt.mpr hnl)]
        intro hmapnil
        rw [List.map_eq_nil_iff] at hmapnil
        exact List.ne_nil_of_mem hfil hmapnil
      rw [if_neg (by simpa [List.isEmpty_iff] using hcs)] at h
      simp at h
    · intro h
      simp [transformLineString, h]
  · simp only [addFeature]
    cases hf : ls.filter fun l' => c.tolerance < l'.dist with
    | nil =>
        have hall : ∀ l' ∈ ls, l'.dist ≤ c.tolerance := by
          intro l' hl'
          have := List.filter_eq_nil_iff.mp hf l' hl'
          rw [decide_eq_true_eq] at this
          exact not_lt.mp this
        simp only [List.map_nil]
        exact iff_of_true (by simp) hall
    | cons a t =>
        have ha : a ∈ ls.filter fun l' => c.tolerance < l'.dist := by
          rw [hf]; exact List.mem_cons_self a t
        have halt : c.tolerance < a.dist := by
          have := List.of_mem_filter ha
          rwa [decide_eq_true_eq] at this
        have hamem : a ∈ ls := List.mem_of_mem_filter ha
        have hrhs : ¬∀ l' ∈ ls, l'.dist ≤ c.tolerance := by
          intro hall
          exact absurd (hall a hamem) (not_le.mpr halt)
        cases t with
        | nil => exact iff_of_false (by simp) hrhs
        | cons b t' => exact iff_of_false (by simp) hrhs

/-- C7 counterexample: a MultiLineString member with `dist = tolerance = 2`
satisfies `¬(dist < tolerance)`, so per the claim it should be kept, but the
built tile emits no feature at all (the member filter demands
`dist > tolerance`). -/
theorem c7_counterexample :
    ¬(cexLine2.dist < (2 : ℚ)) ∧
    (ITile.new [cexMultiLineFeature] 0 0 0 1 2 false).tile.features = [] := by
  constructor
  · norm_num [cexLine2]
  · norm_num [ITile.new, cexMultiLineFeature, cexLine2, VtFeature.new, VtGeometry.points,
      bboxOfPoints, addFeature, transformLineString, BBoxQ.addPoint, XBBox.merge]

/-- Witness for `c7_line_drop` at a concrete configuration. -/
theorem c7_line_drop_witness :
    ((⟨0, 0, 1, 1, 0, 0, false⟩ : TileCfg).tolerance < 1 ∧
      (⟨[⟨0, 0, 1⟩], 0, 0, 0⟩ : VtLineString).elements.head? = some ⟨0, 0, 1⟩ ∧
      (⟨(0 : ℚ), 0, 1⟩ : VtPoint).z = 1) ∧
    ((addFeature ⟨0, 0, 1, 1, 0, 0, false⟩ (.lineString ⟨[⟨0, 0, 1⟩], 0, 0, 0⟩) = [] ↔
        (⟨[⟨0, 0, 1⟩], 0, 0, 0⟩ : VtLineString).dist < (⟨0, 0, 1, 1, 0, 0, false⟩ : TileCfg).tolerance) ∧
      (addFeature ⟨0, 0, 1, 1, 0, 0, false⟩ (.multiLineString [cexLine2]) = [] ↔
        ∀ l' ∈ [cexLine2], l'.dist ≤ (⟨0, 0, 1, 1, 0, 0, false⟩ : TileCfg).tolerance)) :=
  ⟨⟨by decide, rfl, rfl⟩, c7_line_drop _ _ _ ⟨0, 0, 1⟩ (by decide) rfl rfl⟩

/-- The guard `i == len - 1` of `clip_ring` is never satisfied: the window
walk with any start index bounded so that every visited index stays below
`lastIdx` equals the branchless walk. -/
theorem clipRingGo_eq_plain (ax : Axis) (k1 k2 : ℚ) (lastIdx : ℕ) :
    ∀ (pts : List VtPoint) (i : ℕ) (acc : List VtPoint), i + pts.length ≤ lastIdx + 1 →
      clipRingGo ax k1 k2 lastIdx i pts acc = clipRingGoPlain ax k1 k2 pts acc := by
  intro pts
  induction pts with
  | nil => intro i acc _; rfl
  | cons a tail ih =>
      intro i acc hle
      cases tail with
      | nil => rfl
      | cons b rest =>
          have hne : i ≠ lastIdx := by
            simp only [List.length_cons] at hle
            omega
          have hrec := ih (i + 1)
          simp only [clipRingGo, clipRingGoPlain, hne, if_false, reduceIte]
          rw [ih (i + 1) _ (by simp only [List.length_cons] at hle ⊢; omega)]

/-- C4 (amended): the endpoint `b` is never emitted by the last-segment rule
of `clip_ring`: the rule's guard compares the window index against
`len - 1`, but window indices stop at `len - 2`, so the branch is dead and
`clip_ring` equals the same algorithm with the branch removed.  (For closed
rings the subsequent ring-closure step usually re-appends the first vertex,
which is why the crate's own polygon tests still pass.) -/
theorem c4_last_segment_dead (ax : Axis) (k1 k2 : ℚ) (ring : VtLinearRing) :
    clipRing ax k1 k2 ring = clipRingPlain ax k1 k2 ring := by
  unfold clipRing clipRingPlain
  by_cases h : ring.elements.length < 2
  · simp [h]
  · rw [clipRingGo_eq_plain ax k1 k2 (ring.elements.length - 1) ring.elements 0 [] (by omega)]

/-- C4 counterexample: on the ring `cexRingOpen` against the strip
`[10, 40]`, the last segment runs from outside the strip to the endpoint
`b = (20, 8)` which lies inside (`10 ≤ 20 ≤ 40`), yet the code's output does
not contain `b`, while the algorithm described by the specification (which
emits `b` on the last segment) produces it. -/
theorem c4_counterexample :
    clipRing .x0 10 40 cexRingOpen =
      some ⟨[⟨20, 4, 0⟩, ⟨10, 4, 1⟩, ⟨10, 6, 1⟩, ⟨20, 4, 0⟩], 0⟩ ∧
    clipRingSpec .x0 10 40 cexRingOpen =
      some ⟨[⟨20, 4, 0⟩, ⟨10, 4, 1⟩, ⟨10, 6, 1⟩, ⟨20, 8, 0⟩, ⟨20, 4, 0⟩], 0⟩ := by
  constructor
  · norm_num [clipRing, clipRingGo, closeRing, cexRingOpen, VtPoint.coord, calcProgress,
      intersectPt]
  · norm_num [clipRingSpec, clipRingGoSpec, closeRing, cexRingOpen, VtPoint.coord, calcProgress,
      intersectPt]

mutual

/-- C3 (amended): conversion is total, and a geometry converts to no
geometry exactly when its top-level coordinate array is empty (for a
`GeometryCollection`: all members are empty in that sense).  An empty member
array inside a MultiLineString / Polygon / MultiPolygon does not make the
conversion fail and does not drop anything: it is converted to an empty
element list that stays inside the geometry. -/
theorem c3_convert_none_iff (projY : ℚ → ℚ) (hp : VtPoint → VtPoint → ℚ) (tol : ℚ) :
    (g : GJGeometry) → (convertGeometry projY hp tol g = none ↔ emptyTop g = true)
  | .point cs => by by_cases h : cs.isEmpty <;> simp [convertGeometry, emptyTop, h]
  | .multiPoint cs => by by_cases h : cs.isEmpty <;> simp [convertGeometry, emptyTop, h]
  | .lineString cs => by by_cases h : cs.isEmpty <;> simp [convertGeometry, emptyTop, h]
  | .multiLineString cs => by by_cases h : cs.isEmpty <;> simp [convertGeometry, emptyTop, h]
  | .polygon cs => by by_cases h : cs.isEmpty <;> simp [convertGeometry, emptyTop, h]
  | .multiPolygon cs => by by_cases h : cs.isEmpty <;> simp [convertGeometry, emptyTop, h]
  | .geometryCollection gs => by
      have hl := c3_convertList_nil_iff projY hp tol gs
      by_cases h : convertGeometryList projY hp tol gs = []
      · simp [convertGeometry, emptyTop, h, hl.mp h]
      · have h' : ¬(convertGeometryList projY hp tol gs).isEmpty = true := by
          simpa [List.isEmpty_iff] using h
        have h'' : ¬emptyTopList gs = true := fun hc => h (hl.mpr hc)
        simp [convertGeometry, emptyTop, h', h'']

/-- The member conversion of a `GeometryCollection` produces no members
exactly when every member is top-level empty. -/
theorem c3_convertList_nil_iff (projY : ℚ → ℚ) (hp : VtPoint → VtPoint → ℚ) (tol : ℚ) :
    (gs : List GJGeometry) → (convertGeometryList projY hp tol gs = [] ↔ emptyTopList gs = true)
  | [] => by simp [convertGeometryList, emptyTopList]
  | g :: gs => by
      have hg := c3_convert_none_iff projY hp tol g
      have hl := c3_convertList_nil_iff projY hp tol gs
      cases hc : convertGeometry projY hp tol g with
      | some v =>
          have : ¬emptyTop g = true := fun hemp => by
            rw [← hg] at hemp
            rw [hemp] at hc
            exact Option.noConfusion hc
          simp [convertGeometryList, hc, emptyTopList, this]
      | none =>
          simp [convertGeometryList, hc, emptyTopList, hg.mp hc, hl]

end

/-- C3 counterexample: converting a Feature whose `MultiLineString` has an
empty first member keeps the Feature (the output has one feature, not zero)
and keeps the empty member inside the geometry (member element counts
`[0, 2]`), contradicting "every empty coordinate array … yields no geometry
and the enclosing Feature is dropped". -/
theorem c3_counterexample :
    (convert projYLin hpZero cexEmptyMemberFC (1 / 100)).map (fun f => lineElemCounts f.geometry)
      = [some [0, 2]] := by
  norm_num [convert, cexEmptyMemberFC, convertGeometry, convertLineString, convertCoords,
    simplifyList, setZ, dpRec, dpScan, pointSegmentDist, pairwiseSum, projX, projYLin, hpZero,
    VtFeature.new, lineElemCounts, List.filterMap, List.isEmpty_cons, List.isEmpty_nil]
  rw [if_neg (List.cons_ne_nil _ _)]
  norm_num

/-- If the head of a list passes the filter, it heads the filtered list. -/
theorem filter_head?_pass {α : Type} (p : α → Bool) (l : List α) (a : α)
    (h : l.head? = some a) (hp : p a = true) : (l.filter p).head? = some a := by
  cases l with
  | nil => simp at h
  | cons x t =>
      simp only [List.head?_cons, Option.some.injEq] at h
      subst h
      simp [List.filter_cons, hp]

/-- If the last element of a list passes the filter, it ends the filtered
list. -/
theorem filter_getLast?_pass {α : Type} (p : α → Bool) :
    ∀ (l : List α) (a : α), l.getLast? = some a → p a = true →
      (l.filter p).getLast? = some a
  | [], a, h, _ => by simp at h
  | [x], a, h, hp => by
      simp only [List.getLast?_singleton, Option.some.injEq] at h
      subst h
      simp [List.filter_cons, hp]
  | x :: y :: t, a, h, hp => by
      have h' : (y :: t).getLast? = some a := by
        rw [← h, List.getLast?_cons_cons]
      have ih := filter_getLast?_pass p (y :: t) a h' hp
      rw [List.filter_cons]
      by_cases hx : p x = true
      · rw [if_pos hx]
        cases hf : (y :: t).filter p with
        | nil => rw [hf] at ih; simp at ih
        | cons z zs =>
            rw [hf] at ih
            rw [List.getLast?_cons_cons]
            exact ih
      · rw [if_neg hx]
        exact ih

/-- C2 (amended): an emitted polygon ring is still closed — when the tile's
`sq_tolerance` is below 1 (true for every tolerance the index computes) and
the source ring is closed with endpoint score `z = 1`, the surviving ring is
nonempty and its first transformed vertex equals its last; but the "at least
4 vertices" half of the claim does not hold: the per-vertex filter can shrink
a surviving ring to 3 vertices (see the counterexample). -/
theorem c2_ring_closed (c : TileCfg) (r : VtLinearRing) (p0 : VtPoint)
    (hsq : c.sq_tolerance < 1) (harea : c.sq_tolerance < r.area)
    (hhead : r.elements.head? = some p0) (hlast : r.elements.getLast? = some p0)
    (hz : p0.z = 1) :
    transformLineRing c r ≠ [] ∧
    (transformLineRing c r).head? = some (transformPoint c p0) ∧
    (transformLineRing c r).getLast? = some (transformPoint c p0) := by
  have hnot : ¬r.area < c.sq_tolerance := not_lt.mpr (le_of_lt harea)
  have hpz : decide (c.sq_tolerance < p0.z) = true :=
    decide_eq_true (by rw [hz]; exact hsq)
  rw [transformLineRing, if_neg hnot]
  have hh := filter_head?_pass (fun q : VtPoint => decide (c.sq_tolerance < q.z)) _ _ hhead hpz
  have hl := filter_getLast?_pass (fun q : VtPoint => decide (c.sq_tolerance < q.z)) _ _ hlast hpz
  refine ⟨?_, ?_, ?_⟩
  · intro hnil
    rw [List.map_eq_nil_iff] at hnil
    rw [hnil] at hh
    simp at hh
  · rw [List.head?_map, hh]
    rfl
  · rw [List.getLast?_map, hl]
    rfl

/-- Witness for `c2_ring_closed` at a concrete ring and configuration. -/
theorem c2_ring_closed_witness :
    ((⟨0, 0, 1, 1, 0, 0, false⟩ : TileCfg).sq_tolerance < 1 ∧
      (⟨0, 0, 1, 1, 0, 0, false⟩ : TileCfg).sq_tolerance <
        (⟨[⟨0, 0, 1⟩, ⟨1, 0, 1⟩, ⟨0, 0, 1⟩], 2⟩ : VtLinearRing).area ∧
      (⟨[⟨0, 0, 1⟩, ⟨1, 0, 1⟩, ⟨0, 0, 1⟩], 2⟩ : VtLinearRing).elements.head? = some ⟨0, 0, 1⟩ ∧
      (⟨[⟨0, 0, 1⟩, ⟨1, 0, 1⟩, ⟨0, 0, 1⟩], 2⟩ : VtLinearRing).elements.getLast? = some ⟨0, 0, 1⟩ ∧
      (⟨(0 : ℚ), 0, 1⟩ : VtPoint).z = 1) ∧
    (transformLineRing ⟨0, 0, 1, 1, 0, 0, false⟩ ⟨[⟨0, 0, 1⟩, ⟨1, 0, 1⟩, ⟨0, 0, 1⟩], 2⟩ ≠ [] ∧
      (transformLineRing ⟨0, 0, 1, 1, 0, 0, false⟩ ⟨[⟨0, 0, 1⟩, ⟨1, 0, 1⟩, ⟨0, 0, 1⟩], 2⟩).head? =
        some (transformPoint ⟨0, 0, 1, 1, 0, 0, false⟩ ⟨0, 0, 1⟩) ∧
      (transformLineRing ⟨0, 0, 1, 1, 0, 0, false⟩ ⟨[⟨0, 0, 1⟩, ⟨1, 0, 1⟩, ⟨0, 0, 1⟩], 2⟩).getLast? =
        some (transformPoint ⟨0, 0, 1, 1, 0, 0, false⟩ ⟨0, 0, 1⟩)) :=
  ⟨⟨by decide, by decide, rfl, rfl, rfl⟩,
    c2_ring_closed _ _ ⟨0, 0, 1⟩ (by decide) (by decide) rfl rfl rfl⟩

set_option maxHeartbeats 1000000 in
/-- Douglas–Peucker on the projected diamond ring with threshold `(1/20)²`:
the far vertex scores `1/4`, the two near vertices `1/64`, endpoints `1`. -/
theorem c2_dp_eq :
    simplifyList [⟨1/4, 1/2, 0⟩, ⟨1/2, 5/8, 0⟩, ⟨3/4, 1/2, 0⟩, ⟨1/2, 3/8, 0⟩, ⟨1/4, 1/2, 0⟩]
      (1 / 20) =
    [⟨1/4, 1/2, 1⟩, ⟨1/2, 5/8, 1/64⟩, ⟨3/4, 1/2, 1/4⟩, ⟨1/2, 3/8, 1/64⟩, ⟨1/4, 1/2, 1⟩] := by
  norm_num [simplifyList, setZ, dpRec, dpScan, pointSegmentDist, List.range',
    List.isEmpty_cons]

set_option maxHeartbeats 1000000 in
/-- Conversion of the diamond feature collection under `cexOptsSmall`. -/
theorem c2_convert_eq :
    convert projYLin hpZero cexWorldFC
      (cexOptsSmall.tolerance / (cexOptsSmall.extent : ℚ) / ((2 ^ cexOptsSmall.max_zoom : ℚ)))
      = [c2vt] := by
  have ht : cexOptsSmall.tolerance / (cexOptsSmall.extent : ℚ)
      / ((2 ^ cexOptsSmall.max_zoom : ℚ)) = 1 / 20 := by
    norm_num [cexOptsSmall]
  rw [ht]
  norm_num [convert, cexWorldFC, List.filterMap, convertGeometry, convertLineRing,
    convertCoords, projX, projYLin, pairwiseSum, hpZero, VtFeature.new, VtGeometry.points,
    bboxOfPoints, BBoxQ.addPoint, c2vt, c2ring, c2_dp_eq, List.isEmpty_cons]

set_option maxHeartbeats 1000000 in
/-- The wrapper is the identity on the diamond feature (no antimeridian
crossing). -/
theorem c2_wrap_eq :
    wrap hpZero [c2vt] ((cexOptsSmall.buffer : ℚ) / (cexOptsSmall.extent : ℚ))
      cexOptsSmall.line_metrics = some [c2vt] := by
  norm_num [wrap, clip, clipStep, XQ.geQ, XQ.leQ, XQ.ltQ, XQ.gtQ, BBoxQ.range,
    c2vt, cexOptsSmall, List.isEmpty_nil, List.isEmpty_cons]

set_option maxHeartbeats 1000000 in
/-- The initial split under `cexOptsSmall` stops at the root
(`index_max_zoom = 0`) after building the root tile. -/
theorem c2_split_eq :
    splitTile cexOptsSmall hpZero (cexOptsSmall.index_max_zoom + 1) [c2vt] 0 0 0 0 0 0 []
      = some c2tiles := by
  norm_num [splitTile, cexOptsSmall, toId, lookupTile, insertTile, setSource, ITile.new,
    addFeature, transformPolygon, transformLineRing, transformPoint, roundQ, XBBox.merge,
    XBBox.default, XQ.minF, XQ.maxF, c2vt, c2ring, c2itile, c2tiles, List.find?,
    List.isEmpty_cons, List.isEmpty_nil, emptyTile, outPosCount]

/-- Building the index over the diamond under `cexOptsSmall`. -/
theorem c2_state_eq :
    VTnew projYLin hpZero cexOptsSmall cexWorldFC = some ⟨cexOptsSmall, c2tiles⟩ := by
  simp only [VTnew]
  rw [if_neg (by decide)]
  rw [c2_convert_eq, c2_wrap_eq]
  simp only [Option.some_bind]
  rw [c2_split_eq]
  rfl

/-- C2 counterexample: building the index over the diamond polygon with
`maxZoom 2`, `indexMaxZoom 0`, `tolerance 1/5`, `extent 1`, `buffer 0` and
requesting tile `(0,0,0)` emits a polygon whose only ring has 3 vertices —
the "at least 4 vertices" invariant fails (the ring is still closed). -/
theorem c2_counterexample :
    (VTnew projYLin hpZero cexOptsSmall cexWorldFC).bind
        (fun s => (tileCall hpZero s 0 0 0).map fun r => r.1.features)
      = some [.polygon [[(0, 1), (1, 1), (0, 1)]]] := by
  rw [c2_state_eq]
  decide

/-- C6: `getTile` is wrap invariant — for `z ≤ maxZoom` (with `maxZoom ≤ 24`
as `GeoJSONVT::new` enforces), requesting `x` and `x + 2^z` yields identical
results (tile and state), because `x` is normalized into `[0, 2^z)` by
`((x mod 2^z) + 2^z) mod 2^z` over the `u32` parameter. -/
theorem c6_wrap_invariance (hp : VtPoint → VtPoint → ℚ) (s : VTState) (z x y : ℕ)
    (hz : z ≤ s.options.max_zoom) (hmz : s.options.max_zoom ≤ 24) :
    tileCall hp s z x y = tileCall hp s z (x + 2 ^ z) y := by
  have hdvd : (2 ^ z : ℕ) ∣ 2 ^ 32 := pow_dvd_pow 2 (by omega)
  have hx : (x + 2 ^ z) % 2 ^ 32 % 2 ^ z = x % 2 ^ 32 % 2 ^ z := by
    rw [Nat.mod_mod_of_dvd _ hdvd, Nat.mod_mod_of_dvd _ hdvd, Nat.add_mod_right]
  simp only [tileCall]
  rw [hx]

/-- Witness for `c6_wrap_invariance` on a concrete state. -/
theorem c6_wrap_invariance_witness :
    ((0 : ℕ) ≤ (⟨VTOptions.default, []⟩ : VTState).options.max_zoom ∧
      (⟨VTOptions.default, []⟩ : VTState).options.max_zoom ≤ 24) ∧
    tileCall hpZero ⟨VTOptions.default, []⟩ 0 5 0 =
      tileCall hpZero ⟨VTOptions.default, []⟩ 0 (5 + 2 ^ 0) 0 :=
  ⟨⟨by decide, by decide⟩,
    c6_wrap_invariance hpZero ⟨VTOptions.default, []⟩ 0 5 0 (by decide) (by decide)⟩

theorem pairwiseSum_nonneg (hp : VtPoint → VtPoint → ℚ) (hhp : ∀ a b, 0 ≤ hp a b) :
    ∀ l, 0 ≤ pairwiseSum hp l
  | [] => le_refl 0
  | [_] => le_refl 0
  | a :: b :: rest => by
      have ih := pairwiseSum_nonneg hp hhp (b :: rest)
      have h := hhp a b
      show 0 ≤ hp a b + pairwiseSum hp (b :: rest)
      linarith

theorem progress_bound_pos (ak bk enter exitv : ℚ) (hab : ak < bk)
    (h1 : ak ≤ enter) (h2 : enter ≤ exitv) (h3 : exitv ≤ bk) :
    0 ≤ (enter - ak) / (bk - ak) ∧
    (enter - ak) / (bk - ak) ≤ (exitv - ak) / (bk - ak) ∧
    (exitv - ak) / (bk - ak) ≤ 1 := by
  have hd : 0 < bk - ak := by linarith
  refine ⟨div_nonneg (by linarith) (le_of_lt hd), ?_, ?_⟩
  · exact (div_le_div_iff_of_pos_right hd).mpr (by linarith)
  · exact (div_le_one hd).mpr (by linarith)

theorem progress_bound_neg (ak bk enter exitv : ℚ) (hab : bk < ak)
    (h1 : enter ≤ ak) (h2 : exitv ≤ enter) (h3 : bk ≤ exitv) :
    0 ≤ (enter - ak) / (bk - ak) ∧
    (enter - ak) / (bk - ak) ≤ (exitv - ak) / (bk - ak) ∧
    (exitv - ak) / (bk - ak) ≤ 1 := by
  have hd : bk - ak < 0 := by linarith
  refine ⟨?_, ?_, ?_⟩
  · rw [le_div_iff_of_neg hd]
    linarith
  · rw [div_le_div_right_of_neg hd]
    linarith
  · rw [div_le_iff_of_neg hd]
    linarith

theorem calcProgress_eq (ax : Axis) (a b : VtPoint) (v : ℚ) :
    calcProgress ax a b v = (v - a.coord ax) / (b.coord ax - a.coord ax) := by
  cases ax <;> rfl

theorem mixed_bounds (k1 k2 ak bk : ℚ) (hk : k1 ≤ k2)
    (hno1 : ¬((ak < k1 ∧ bk < k1) ∨ (k2 < ak ∧ k2 < bk)))
    (hno2 : ¬(¬ak < k1 ∧ ¬k2 < ak ∧ ¬bk < k1 ∧ ¬k2 < bk)) :
    0 ≤ ((if ak < k1 then k1 else if k2 < ak then k2 else ak) - ak) / (bk - ak) ∧
    ((if ak < k1 then k1 else if k2 < ak then k2 else ak) - ak) / (bk - ak)
      ≤ ((if k2 < bk then k2 else if bk < k1 then k1 else bk) - ak) / (bk - ak) ∧
    ((if k2 < bk then k2 else if bk < k1 then k1 else bk) - ak) / (bk - ak) ≤ 1 := by
  push_neg at hno1 hno2
  rcases lt_trichotomy ak bk with hab | hab | hab
  · have f2 : ¬k2 < ak := fun h => by linarith [hno1.2 h]
    have f3 : ¬bk < k1 := fun h => by linarith [hno1.1 (by linarith)]
    simp only [if_neg f2, if_neg f3]
    apply progress_bound_pos _ _ _ _ hab
    · split_ifs with h1
      · linarith
      · linarith
    · split_ifs with h1 h4 h4'
      · linarith
      · linarith [hno1.1 h1]
      · linarith
      · linarith
    · split_ifs with h4
      · linarith
      · linarith
  · exfalso
    subst hab
    by_cases h1 : ak < k1
    · linarith [hno1.1 h1]
    · by_cases h2 : k2 < ak
      · linarith [hno1.2 h2]
      · linarith [hno2 (not_lt.mp h1) (not_lt.mp h2) (not_lt.mp h1)]
  · have g2 : ¬ak < k1 := fun h => by linarith [hno1.1 h]
    have g3 : ¬k2 < bk := fun h => by linarith [hno1.2 (by linarith : k2 < ak)]
    simp only [if_neg g2, if_neg g3]
    apply progress_bound_neg _ _ _ _ hab
    · split_ifs with h2
      · linarith
      · linarith
    · split_ifs with ha hb hb'
      · linarith
      · linarith
      · linarith [hno1.2 hb']
      · linarith
    · split_ifs with h5
      · linarith
      · linarith

set_option maxHeartbeats 3200000 in
theorem clipLineGo_inv (ax : Axis) (k1 k2 : ℚ) (hp : VtPoint → VtPoint → ℚ)
    (tmpl : VtLineString) (hk : k1 ≤ k2) (hhp : ∀ a b, 0 ≤ hp a b)
    (h0 : 0 ≤ tmpl.seg_start) :
    ∀ (pts : List VtPoint) (lineLen : ℚ) (slice : VtLineString) (slices : List VtLineString),
      tmpl.seg_start ≤ lineLen →
      lineLen + pairwiseSum hp pts ≤ tmpl.dist →
      0 ≤ slice.seg_start → slice.seg_start ≤ lineLen → slice.dist = tmpl.dist →
      (∀ s ∈ slices, segWF tmpl.dist s) →
      ∀ s ∈ clipLineGo ax k1 k2 true hp tmpl pts lineLen slice slices, segWF tmpl.dist s
  | [] => by
      intro lineLen slice slices _ _ _ _ _ hAcc s hs
      exact hAcc s hs
  | [a] => by
      intro lineLen slice slices _ _ _ _ _ hAcc s hs
      exact hAcc s hs
  | a :: b :: rest => by
      intro lineLen slice slices hLLs hUp hS0 hSle hSd hAcc s hs
      have hseg : 0 ≤ hp a b := hhp a b
      have hLL0 : 0 ≤ lineLen := le_trans hS0 hSle
      have hpr : 0 ≤ pairwiseSum hp (b :: rest) := pairwiseSum_nonneg hp hhp _
      have hUp2 : lineLen + hp a b + pairwiseSum hp (b :: rest) ≤ tmpl.dist := by
        have he : pairwiseSum hp (a :: b :: rest) = hp a b + pairwiseSum hp (b :: rest) := rfl
        rw [he] at hUp
        linarith
      simp only [clipLineGo, reduceIte, eq_self_iff_true, and_true, true_and,
        calcProgress_eq] at hs
      split at hs
      · exact clipLineGo_inv ax k1 k2 hp tmpl hk hhp h0 (b :: rest) (lineLen + hp a b) slice
          slices (by linarith) (by linarith) hS0 (by linarith) hSd hAcc s hs
      · rename_i hno1
        split at hs
        · rename_i hno2
          split at hs
          · rename_i hLast
            rcases List.mem_append.mp hs with h | h
            · exact hAcc s h
            · rw [List.mem_singleton] at h
              subst h
              refine ⟨hS0, ?_, ?_, hSd⟩
              · show slice.seg_start ≤ lineLen + hp a b
                linarith
              · show lineLen + hp a b ≤ tmpl.dist
                linarith
          · rename_i hLast
            exact clipLineGo_inv ax k1 k2 hp tmpl hk hhp h0 (b :: rest) (lineLen + hp a b)
              ⟨slice.elements ++ [a], slice.dist, slice.seg_start, slice.seg_end⟩ slices
              (by linarith) (by linarith) hS0 (by linarith) hSd hAcc s hs
        · rename_i hno2
          obtain ⟨hT0, hTle, hT1⟩ :=
            mixed_bounds k1 k2 (a.coord ax) (b.coord ax) hk hno1 hno2
          set eV := (if a.coord ax < k1 then k1 else if k2 < a.coord ax then k2
            else a.coord ax) with heV
          set xV := (if k2 < b.coord ax then k2 else if b.coord ax < k1 then k1
            else b.coord ax) with hxV
          set tE := (eV - a.coord ax) / (b.coord ax - a.coord ax) with htEdef
          set tX := (xV - a.coord ax) / (b.coord ax - a.coord ax) with htXdef
          have htX0 : 0 ≤ tX := le_trans hT0 hTle
          have htX1 : hp a b * tX ≤ hp a b :=
            le_trans (mul_le_mul_of_nonneg_left hT1 hseg) (by rw [mul_one])
          have htE1 : hp a b * tE ≤ hp a b * tX := mul_le_mul_of_nonneg_left hTle hseg
          have htEX0 : 0 ≤ hp a b * tE := mul_nonneg hseg hT0
          have htXX0 : 0 ≤ hp a b * tX := mul_nonneg hseg htX0
          have hE1 : hp a b * tE ≤ hp a b := le_trans htE1 htX1
          by_cases hU : eV ≠ a.coord ax
          · rw [if_pos hU] at hs
            by_cases hEx : xV = b.coord ax
            · rw [if_pos hEx] at hs
              by_cases hLast : rest.isEmpty = true
              · rw [if_pos hLast] at hs
                rcases List.mem_append.mp hs with h | h
                · exact hAcc s h
                · rw [List.mem_singleton] at h
                  subst h
                  refine ⟨?_, ?_, ?_, ?_⟩
                  · show 0 ≤ lineLen + hp a b * tE
                    linarith
                  · show lineLen + hp a b * tE ≤ lineLen + hp a b * tX
                    linarith
                  · show lineLen + hp a b * tX ≤ tmpl.dist
                    linarith
                  · show slice.dist = tmpl.dist
                    exact hSd
              · rw [if_neg hLast] at hs
                refine clipLineGo_inv ax k1 k2 hp tmpl hk hhp h0 (b :: rest)
                  (lineLen + hp a b) _ slices (by linarith) (by linarith) ?_ ?_ ?_ hAcc s hs
                · show 0 ≤ lineLen + hp a b * tE
                  linarith
                · show lineLen + hp a b * tE ≤ lineLen + hp a b
                  linarith
                · show slice.dist = tmpl.dist
                  exact hSd
            · rw [if_neg hEx] at hs
              refine clipLineGo_inv ax k1 k2 hp tmpl hk hhp h0 (b :: rest)
                (lineLen + hp a b) _ _ (by linarith) (by linarith) ?_ ?_ ?_ ?_ s hs
              · show 0 ≤ tmpl.seg_start
                exact h0
              · show tmpl.seg_start ≤ lineLen + hp a b
                linarith
              · show tmpl.dist = tmpl.dist
                rfl
              · intro t ht
                rcases List.mem_append.mp ht with h | h
                · exact hAcc t h
                · rw [List.mem_singleton] at h
                  subst h
                  refine ⟨?_, ?_, ?_, ?_⟩
                  · show 0 ≤ lineLen + hp a b * tE
                    linarith
                  · show lineLen + hp a b * tE ≤ lineLen + hp a b * tX
                    linarith
                  · show lineLen + hp a b * tX ≤ tmpl.dist
                    linarith
                  · show slice.dist = tmpl.dist
                    exact hSd
          · rw [if_neg hU] at hs
            by_cases hEx : xV = b.coord ax
            · rw [if_pos hEx] at hs
              by_cases hLast : rest.isEmpty = true
              · rw [if_pos hLast] at hs
                rcases List.mem_append.mp hs with h | h
                · exact hAcc s h
                · rw [List.mem_singleton] at h
                  subst h
                  refine ⟨?_, ?_, ?_, ?_⟩
                  · show 0 ≤ slice.seg_start
                    exact hS0
                  · show slice.seg_start ≤ lineLen + hp a b * tX
                    linarith
                  · show lineLen + hp a b * tX ≤ tmpl.dist
                    linarith
                  · show slice.dist = tmpl.dist
                    exact hSd
              · rw [if_neg hLast] at hs
                refine clipLineGo_inv ax k1 k2 hp tmpl hk hhp h0 (b :: rest)
                  (lineLen + hp a b) _ slices (by linarith) (by linarith) ?_ ?_ ?_ hAcc s hs
                · show 0 ≤ slice.seg_start
                  exact hS0
                · show slice.seg_start ≤ lineLen + hp a b
                  linarith
                · show slice.dist = tmpl.dist
                  exact hSd
            · rw [if_neg hEx] at hs
              refine clipLineGo_inv ax k1 k2 hp tmpl hk hhp h0 (b :: rest)
                (lineLen + hp a b) _ _ (by linarith) (by linarith) ?_ ?_ ?_ ?_ s hs
              · show 0 ≤ tmpl.seg_start
                exact h0
              · show tmpl.seg_start ≤ lineLen + hp a b
                linarith
              · show tmpl.dist = tmpl.dist
                rfl
              · intro t ht
                rcases List.mem_append.mp ht with h | h
                · exact hAcc t h
                · rw [List.mem_singleton] at h
                  subst h
                  refine ⟨?_, ?_, ?_, ?_⟩
                  · show 0 ≤ slice.seg_start
                    exact hS0
                  · show slice.seg_start ≤ lineLen + hp a b * tX
                    linarith
                  · show lineLen + hp a b * tX ≤ tmpl.dist
                    linarith
                  · show slice.dist = tmpl.dist
                    exact hSd

/-- **C8.** Every LineString slice produced by `Clipper::clip_line` with
`line_metrics` on satisfies `0 ≤ seg_start ≤ seg_end ≤ dist`, where `dist` is
the total length of the ancestor line, provided the length oracle `hp`
(standing for `f64::hypot`) is nonnegative and the input line's metrics are
consistent (`0 ≤ seg_start` and `seg_start` plus the summed segment lengths is
at most `dist`) — as holds for every line emitted by the converter, whose
`seg_start` is `0` and whose `dist` is exactly the summed segment lengths. -/
theorem c8_line_metrics_bounds (ax : Axis) (k1 k2 : ℚ) (hp : VtPoint → VtPoint → ℚ)
    (line : VtLineString) (hk : k1 ≤ k2) (hhp : ∀ a b, 0 ≤ hp a b)
    (h0 : 0 ≤ line.seg_start)
    (htot : line.seg_start + pairwiseSum hp line.elements ≤ line.dist) :
    ∀ s ∈ clipLine ax k1 k2 true hp line,
      0 ≤ s.seg_start ∧ s.seg_start ≤ s.seg_end ∧ s.seg_end ≤ line.dist ∧
        s.dist = line.dist := by
  intro s hs
  rw [clipLine] at hs
  split at hs
  · exact absurd hs (List.not_mem_nil s)
  · refine clipLineGo_inv ax k1 k2 hp line hk hhp h0 line.elements line.seg_start
      (newSlice true line) [] (le_refl _) htot ?_ ?_ ?_ ?_ s hs
    · show 0 ≤ line.seg_start
      exact h0
    · show line.seg_start ≤ line.seg_start
      exact le_refl _
    · show line.dist = line.dist
      rfl
    · intro t ht
      exact absurd ht (List.not_mem_nil t)

/-- Witness for `c8_line_metrics_bounds` at a concrete input. -/
theorem c8_line_metrics_bounds_witness :
    ((0 : ℚ) ≤ 1 ∧ (0 : ℚ) + pairwiseSum hpZero [] ≤ 1) ∧
    ∀ s ∈ clipLine Axis.x0 0 1 true hpZero ⟨[], 1, 0, 0⟩,
      0 ≤ s.seg_start ∧ s.seg_start ≤ s.seg_end ∧ s.seg_end ≤ (1 : ℚ) ∧
        s.dist = 1 :=
  ⟨⟨by norm_num, by show (0 : ℚ) + 0 ≤ 1; norm_num⟩,
   c8_line_metrics_bounds Axis.x0 0 1 hpZero ⟨[], 1, 0, 0⟩ (by norm_num)
     (fun a b => le_refl 0) (le_refl 0) (by show (0 : ℚ) + 0 ≤ 1; norm_num)⟩


theorem transformLineString_len (c : TileCfg) (l : VtLineString) :
    (transformLineString c l).length ≤ l.elements.length := by
  rw [transformLineString]
  split
  · exact Nat.zero_le _
  · rw [List.length_map]
    exact List.length_filter_le _ _

theorem transformLineRing_len (c : TileCfg) (r : VtLinearRing) :
    (transformLineRing c r).length ≤ r.elements.length := by
  rw [transformLineRing]
  split
  · exact Nat.zero_le _
  · rw [List.length_map]
    exact List.length_filter_le _ _

theorem sum_filter_map_le {α β : Type} (P : α → Bool) (T : α → β) (f : β → ℕ)
    (g : α → ℕ) (h : ∀ x, f (T x) ≤ g x) :
    ∀ l : List α, (((l.filter P).map T).map f).sum ≤ (l.map g).sum
  | [] => le_refl 0
  | a :: l => by
      have ih := sum_filter_map_le P T f g h l
      rw [List.filter_cons]
      split
      · simp only [List.map_cons, List.sum_cons]
        exact Nat.add_le_add (h a) ih
      · simp only [List.map_cons, List.sum_cons]
        exact le_trans ih (Nat.le_add_left _ _)

theorem sum_map_filter_le {α β : Type} (Q : β → Bool) (T : α → β) (f : β → ℕ)
    (g : α → ℕ) (h : ∀ x, f (T x) ≤ g x) :
    ∀ l : List α, (((l.map T).filter Q).map f).sum ≤ (l.map g).sum
  | [] => le_refl 0
  | a :: l => by
      have ih := sum_map_filter_le Q T f g h l
      rw [List.map_cons, List.filter_cons]
      split
      · simp only [List.map_cons, List.sum_cons]
        exact Nat.add_le_add (h a) ih
      · simp only [List.map_cons, List.sum_cons]
        exact le_trans ih (Nat.le_add_left _ _)

theorem transformPolygon_sum (c : TileCfg) (rs : List VtLinearRing) :
    ((transformPolygon c rs).map List.length).sum
      ≤ ((rs.map fun r => r.elements).flatten).length := by
  rw [transformPolygon, List.length_flatten]
  have h := sum_filter_map_le (fun r => decide (c.sq_tolerance < r.area))
    (transformLineRing c) List.length (fun r => r.elements.length)
    (fun r => transformLineRing_len c r) rs
  simpa [List.map_map, Function.comp] using h

mutual

theorem addFeature_outPos_le (c : TileCfg) :
    ∀ g : VtGeometry, ((addFeature c g).map outPosCount).sum ≤ g.points.length
  | .point p => by
      simp [addFeature, outPosCount, VtGeometry.points]
  | .multiPoint ps => by
      match ps with
      | [] => simp [addFeature, VtGeometry.points]
      | [p] => simp [addFeature, outPosCount, VtGeometry.points]
      | p :: q :: rest => simp [addFeature, outPosCount, VtGeometry.points]
  | .lineString l => by
      rw [addFeature]
      show ((if (transformLineString c l).isEmpty then []
          else [OutGeometry.lineString (transformLineString c l)]).map outPosCount).sum
        ≤ l.elements.length
      split
      · exact Nat.zero_le _
      · simp only [List.map_cons, List.map_nil, List.sum_cons, List.sum_nil,
          outPosCount, Nat.add_zero]
        exact transformLineString_len c l
  | .multiLineString ls => by
      rw [addFeature]
      have key : (((ls.filter fun l => decide (c.tolerance < l.dist)).map
            (transformLineString c)).map List.length).sum
          ≤ (ls.map fun l => l.elements.length).sum :=
        sum_filter_map_le _ _ _ _ (fun l => transformLineString_len c l) ls
      have hpts : (VtGeometry.points (.multiLineString ls)).length
          = (ls.map fun l => l.elements.length).sum := by
        rw [VtGeometry.points, List.length_flatten, List.map_map]
        rfl
      rw [hpts]
      rcases hm : (ls.filter fun l => decide (c.tolerance < l.dist)).map
          (transformLineString c) with _ | ⟨q, _ | ⟨q2, qs⟩⟩
      · simp only [hm, List.map_nil, List.sum_nil]
        exact Nat.zero_le _
      · rw [hm] at key
        simp only [hm]
        simpa [outPosCount] using key
      · rw [hm] at key
        simp only [hm]
        simpa [outPosCount] using key
  | .polygon rs => by
      rw [addFeature]
      have key := transformPolygon_sum c rs
      have hpts : (VtGeometry.points (.polygon rs)).length
          = ((rs.map fun r => r.elements).flatten).length := rfl
      rw [hpts]
      split
      · exact Nat.zero_le _
      · simpa [outPosCount] using key
  | .multiPolygon ps => by
      rw [addFeature]
      have key : ((((ps.map (transformPolygon c)).filter fun q => !q.isEmpty).map
            fun q => (q.map List.length).sum).sum)
          ≤ (ps.map fun poly => ((poly.map fun r => r.elements).flatten).length).sum :=
        sum_map_filter_le (fun q => !q.isEmpty) (transformPolygon c)
          (fun q => (q.map List.length).sum)
          (fun poly => ((poly.map fun r => r.elements).flatten).length)
          (fun poly => transformPolygon_sum c poly) ps
      have hpts : (VtGeometry.points (.multiPolygon ps)).length
          = (ps.map fun poly => ((poly.map fun r => r.elements).flatten).length).sum := by
        rw [VtGeometry.points, List.length_flatten, List.map_map]
        rfl
      rw [hpts]
      rcases hm : (ps.map (transformPolygon c)).filter (fun q => !q.isEmpty)
          with _ | ⟨q, _ | ⟨q2, qs⟩⟩
      · simp only [hm, List.map_nil, List.sum_nil]
        exact Nat.zero_le _
      · rw [hm] at key
        simp only [hm]
        simpa [outPosCount] using key
      · rw [hm] at key
        simp only [hm]
        simpa [outPosCount] using key
  | .geometryCollection gs => by
      rw [addFeature]
      exact addFeatureList_outPos_le c gs

theorem addFeatureList_outPos_le (c : TileCfg) :
    ∀ gs : List VtGeometry,
      ((addFeatureList c gs).map outPosCount).sum ≤ (VtGeometry.pointsList gs).length
  | [] => le_refl 0
  | g :: gs => by
      have ih := addFeatureList_outPos_le c gs
      have hg := addFeature_outPos_le c g
      rw [addFeatureList, VtGeometry.pointsList, List.map_append, List.sum_append,
        List.length_append]
      exact Nat.add_le_add hg ih

end

theorem VtFeature_new_cvle (g : VtGeometry) : cvle (VtFeature.new g) :=
  le_refl g.points.length

theorem foldl_counts_le {σ : Type} (step : σ → VtFeature → σ)
    (pc sc : σ → ℕ)
    (hstep : ∀ a f, cvle f → sc a ≤ pc a → sc (step a f) ≤ pc (step a f)) :
    ∀ (fs : List VtFeature) (a : σ), (∀ f ∈ fs, cvle f) → sc a ≤ pc a →
      sc (fs.foldl step a) ≤ pc (fs.foldl step a)
  | [], _, _, h0 => h0
  | f :: fs, a, h, h0 => by
      rw [List.foldl_cons]
      exact foldl_counts_le step pc sc hstep fs (step a f)
        (fun g hg => h g (List.mem_cons_of_mem f hg))
        (hstep a f (h f (List.mem_cons_self f fs)) h0)

theorem ITile_new_tileInv (fs : List VtFeature) (z x y extent : ℕ) (tol : ℚ) (lm : Bool)
    (h : ∀ f ∈ fs, cvle f) : tileInv (ITile.new fs z x y extent tol lm) := by
  constructor
  · simp only [ITile.new]
    refine foldl_counts_le _ (fun a : Tile × XBBox => a.1.point_count)
      (fun a : Tile × XBBox => a.1.simplified_count) ?_ fs _ h (le_refl 0)
    intro a f hcv h0
    show a.1.simplified_count + ((addFeature _ f.geometry).map outPosCount).sum
      ≤ a.1.point_count + f.point_count
    exact Nat.add_le_add h0 (le_trans (addFeature_outPos_le _ f.geometry) hcv)
  · intro f hf
    simp only [ITile.new] at hf
    exact absurd hf (List.not_mem_nil f)

theorem line_map_flatten (f : VtPoint → VtPoint) (ls : List VtLineString) :
    ((ls.map fun l => { l with elements := l.elements.map f }).map
        fun l => l.elements).flatten
      = ((ls.map fun l => l.elements).flatten).map f := by
  induction ls with
  | nil => rfl
  | cons l rest ih => simp only [List.map_cons, List.flatten_cons, List.map_append, ih]

theorem ring_map_flatten (f : VtPoint → VtPoint) (rs : List VtLinearRing) :
    ((rs.map fun r => { r with elements := r.elements.map f }).map
        fun r => r.elements).flatten
      = ((rs.map fun r => r.elements).flatten).map f := by
  induction rs with
  | nil => rfl
  | cons r rest ih => simp only [List.map_cons, List.flatten_cons, List.map_append, ih]

theorem poly_map_flatten (f : VtPoint → VtPoint) (ps : List (List VtLinearRing)) :
    ((ps.map fun poly => poly.map fun r => { r with elements := r.elements.map f }).map
        fun poly => (poly.map fun r => r.elements).flatten).flatten
      = ((ps.map fun poly => (poly.map fun r => r.elements).flatten).flatten).map f := by
  induction ps with
  | nil => rfl
  | cons poly rest ih =>
      simp only [List.map_cons, List.flatten_cons, List.map_append, ih,
        ring_map_flatten]

mutual

theorem mapPoints_points (f : VtPoint → VtPoint) :
    ∀ g : VtGeometry, (g.mapPoints f).points = g.points.map f
  | .point p => rfl
  | .multiPoint ps => rfl
  | .lineString l => rfl
  | .multiLineString ls => by
      simp only [VtGeometry.mapPoints, VtGeometry.points]
      exact line_map_flatten f ls
  | .polygon rs => by
      simp only [VtGeometry.mapPoints, VtGeometry.points]
      exact ring_map_flatten f rs
  | .multiPolygon ps => by
      simp only [VtGeometry.mapPoints, VtGeometry.points]
      exact poly_map_flatten f ps
  | .geometryCollection gs => by
      simp only [VtGeometry.mapPoints, VtGeometry.points]
      exact mapPointsList_points f gs

theorem mapPointsList_points (f : VtPoint → VtPoint) :
    ∀ gs : List VtGeometry,
      VtGeometry.pointsList (VtGeometry.mapPointsList f gs)
        = (VtGeometry.pointsList gs).map f
  | [] => rfl
  | g :: gs => by
      rw [VtGeometry.mapPointsList]
      rw [VtGeometry.pointsList, VtGeometry.pointsList, List.map_append,
        mapPoints_points f g, mapPointsList_points f gs]

end

theorem shiftFeature_cvle (off : ℚ) (f : VtFeature) (h : cvle f) :
    cvle (shiftFeature off f) := by
  show ((f.geometry.mapPoints _).points).length ≤ f.point_count
  rw [mapPoints_points, List.length_map]
  exact h

theorem mem_append_cvle (o xs : List VtFeature)
    (ho : ∀ x ∈ o, cvle x) (hxs : ∀ x ∈ xs, cvle x) : ∀ x ∈ o ++ xs, cvle x := by
  intro x hx
  rcases List.mem_append.mp hx with h | h
  · exact ho x h
  · exact hxs x h

theorem append_new_cvle (o : List VtFeature) (g : VtGeometry) (ho : ∀ x ∈ o, cvle x) :
    ∀ x ∈ o ++ [VtFeature.new g], cvle x := by
  refine mem_append_cvle o _ ho ?_
  intro x hx
  rw [List.mem_singleton] at hx
  subst hx
  exact VtFeature_new_cvle g

theorem clipStep_cvle (ax : Axis) (k1 k2 : ℚ) (lm : Bool) (hp : VtPoint → VtPoint → ℚ)
    (acc : Option (List VtFeature)) (f : VtFeature) (out : List VtFeature)
    (hf : cvle f)
    (hacc : ∀ o, acc = some o → ∀ x ∈ o, cvle x)
    (h : clipStep ax k1 k2 lm hp acc f = some out) :
    ∀ x ∈ out, cvle x := by
  cases acc with
  | none => exact absurd h (by simp [clipStep])
  | some o =>
    have ho := hacc o rfl
    rw [clipStep] at h
    simp only [Option.some_bind] at h
    split at h
    · exact absurd h (by simp)
    · split at h
      · rw [Option.some.injEq] at h
        subst h
        exact mem_append_cvle o [f] ho
          (by intro x hx; rw [List.mem_singleton] at hx; subst hx; exact hf)
      · split at h
        · rw [Option.some.injEq] at h
          subst h
          exact ho
        · cases hcg : clipGeometry ax k1 k2 lm hp f.geometry with
          | none =>
              simp only [hcg, Option.some.injEq] at h
              subst h
              exact ho
          | some g =>
            simp only [hcg] at h
            split at h
            · cases g with
              | multiLineString lines =>
                  simp only [Option.some.injEq] at h
                  subst h
                  refine mem_append_cvle o _ ho ?_
                  intro x hx
                  rcases List.mem_map.mp hx with ⟨seg, _, hseg⟩
                  subst hseg
                  exact VtFeature_new_cvle _
              | point p =>
                  simp only [Option.some.injEq] at h
                  subst h
                  exact append_new_cvle o _ ho
              | multiPoint ps =>
                  simp only [Option.some.injEq] at h
                  subst h
                  exact append_new_cvle o _ ho
              | lineString l =>
                  simp only [Option.some.injEq] at h
                  subst h
                  exact append_new_cvle o _ ho
              | polygon rs =>
                  simp only [Option.some.injEq] at h
                  subst h
                  exact append_new_cvle o _ ho
              | multiPolygon mp =>
                  simp only [Option.some.injEq] at h
                  subst h
                  exact append_new_cvle o _ ho
              | geometryCollection gs =>
                  simp only [Option.some.injEq] at h
                  subst h
                  exact append_new_cvle o _ ho
            · simp only [Option.some.injEq] at h
              subst h
              exact append_new_cvle o _ ho

theorem clip_foldl_cvle (ax : Axis) (k1 k2 : ℚ) (lm : Bool) (hp : VtPoint → VtPoint → ℚ) :
    ∀ (fs : List VtFeature) (acc : Option (List VtFeature)) (out : List VtFeature),
      (∀ f ∈ fs, cvle f) → (∀ o, acc = some o → ∀ x ∈ o, cvle x) →
      fs.foldl (clipStep ax k1 k2 lm hp) acc = some out → ∀ x ∈ out, cvle x
  | [], _, out, _, hacc, h => hacc out h
  | f :: fs, acc, out, h, hacc, heq => by
      rw [List.foldl_cons] at heq
      refine clip_foldl_cvle ax k1 k2 lm hp fs _ out
        (fun g hg => h g (List.mem_cons_of_mem f hg)) ?_ heq
      intro o ho
      exact clipStep_cvle ax k1 k2 lm hp acc f o (h f (List.mem_cons_self f fs)) hacc ho

theorem clip_cvle (ax : Axis) (k1 k2 : ℚ) (mn mx : XQ) (lm : Bool)
    (hp : VtPoint → VtPoint → ℚ) (features out : List VtFeature)
    (h : ∀ f ∈ features, cvle f) (hc : clip ax k1 k2 mn mx lm hp features = some out) :
    ∀ x ∈ out, cvle x := by
  rw [clip] at hc
  split at hc
  · rw [Option.some.injEq] at hc
    subst hc
    exact h
  · split at hc
    · rw [Option.some.injEq] at hc
      subst hc
      intro x hx
      exact absurd hx (List.not_mem_nil x)
    · refine clip_foldl_cvle ax k1 k2 lm hp features (some []) out h ?_ hc
      intro o ho
      rw [Option.some.injEq] at ho
      subst ho
      intro x hx
      exact absurd hx (List.not_mem_nil x)

theorem wrap_cvle (hp : VtPoint → VtPoint → ℚ) (features : List VtFeature) (buffer : ℚ)
    (lm : Bool) (out : List VtFeature)
    (h : ∀ f ∈ features, cvle f) (hw : wrap hp features buffer lm = some out) :
    ∀ x ∈ out, cvle x := by
  rw [wrap] at hw
  cases hL : clip .x0 (-1 - buffer) buffer (.fin (-1)) (.fin 2) lm hp features with
  | none =>
      rw [hL] at hw
      exact absurd hw (by simp)
  | some left =>
    rw [hL] at hw
    simp only [Option.some_bind] at hw
    cases hR : clip .x0 (1 - buffer) (2 + buffer) (.fin (-1)) (.fin 2) lm hp features with
    | none =>
        rw [hR] at hw
        exact absurd hw (by simp)
    | some right =>
      rw [hR] at hw
      simp only [Option.some_bind] at hw
      have hLc := clip_cvle _ _ _ _ _ _ _ features left h hL
      have hRc := clip_cvle _ _ _ _ _ _ _ features right h hR
      split at hw
      · rw [Option.some.injEq] at hw
        subst hw
        exact h
      · cases hM : clip .x0 (-buffer) (1 + buffer) (.fin 1) (.fin 2) lm hp features with
        | none =>
            rw [hM] at hw
            exact absurd hw (by simp)
        | some merged =>
          rw [hM] at hw
          have hMc := clip_cvle _ _ _ _ _ _ _ features merged h hM
          simp only [Option.map_some', Option.some.injEq] at hw
          subst hw
          intro x hx
          have hm1 : ∀ y ∈ (if !left.isEmpty then left.map (shiftFeature 1) ++ merged
              else merged), cvle y := by
            intro y hy
            split at hy
            · rcases List.mem_append.mp hy with hy1 | hy1
              · rcases List.mem_map.mp hy1 with ⟨g, hg, hgy⟩
                subst hgy
                exact shiftFeature_cvle _ _ (hLc g hg)
              · exact hMc y hy1
            · exact hMc y hy
          split at hx
          · rcases List.mem_append.mp hx with hx1 | hx1
            · exact hm1 x hx1
            · rcases List.mem_map.mp hx1 with ⟨g, hg, hgx⟩
              subst hgx
              exact shiftFeature_cvle _ _ (hRc g hg)
          · exact hm1 x hx

theorem lookupTile_tileInv (ts : Tiles) (k : ℕ) (it : ITile)
    (hts : tilesInv ts) (h : lookupTile ts k = some it) : tileInv it := by
  rw [lookupTile] at h
  cases hf : ts.find? fun p => p.1 == k with
  | none =>
      rw [hf] at h
      exact absurd h (by simp)
  | some p =>
    rw [hf] at h
    simp only [Option.map_some', Option.some.injEq] at h
    subst h
    exact hts p (List.mem_of_find?_eq_some hf)

theorem setSource_tilesInv (ts : Tiles) (k : ℕ) (fs : List VtFeature)
    (hts : tilesInv ts) (hfs : ∀ f ∈ fs, cvle f) : tilesInv (setSource ts k fs) := by
  intro p hp
  rw [setSource] at hp
  rcases List.mem_map.mp hp with ⟨q, hq, hPq⟩
  by_cases hk : q.1 == k
  · rw [if_pos hk] at hPq
    subst hPq
    exact ⟨(hts q hq).1, fun f hf => hfs f hf⟩
  · rw [if_neg hk] at hPq
    subst hPq
    exact hts q hq

theorem insertTile_tilesInv (ts : Tiles) (k : ℕ) (it : ITile)
    (hts : tilesInv ts) (hit : tileInv it) : tilesInv (insertTile ts k it) := by
  intro p hp
  rcases List.mem_cons.mp hp with rfl | hm
  · exact hit
  · exact hts p hm

theorem nilFeatures_cvle : ∀ f ∈ ([] : List VtFeature), cvle f := by
  intro f hf
  exact absurd hf (List.not_mem_nil f)

theorem nilTiles_inv : tilesInv ([] : Tiles) := by
  intro p hp
  exact absurd hp (List.not_mem_nil p)

theorem splitDescend_tilesInv (o : VTOptions) (hp : VtPoint → VtPoint → ℚ)
    (recur : List VtFeature → ℕ → ℕ → ℕ → Tiles → Option Tiles)
    (hrec : ∀ fs z x y ts ts', (∀ f ∈ fs, cvle f) → tilesInv ts →
      recur fs z x y ts = some ts' → tilesInv ts')
    (fs : List VtFeature) (z x y : ℕ) (it : ITile) (ts ts' : Tiles)
    (hfs : ∀ f ∈ fs, cvle f) (hts : tilesInv ts)
    (h : splitDescend o hp recur fs z x y it ts = some ts') : tilesInv ts' := by
  delta splitDescend at h
  have hts1 : tilesInv (setSource ts (toId z x y) []) :=
    setSource_tilesInv _ _ _ hts nilFeatures_cvle
  by_cases he : fs.isEmpty = true
  · rw [if_pos he, Option.some.injEq] at h
    subst h
    exact hts1
  · rw [if_neg he] at h
    simp only [] at h
    cases h1 : clip .x0 (((x : ℚ) - 1 / 2 * (o.buffer : ℚ) / (o.extent : ℚ)) / (2 ^ z : ℚ))
        (((x : ℚ) + 1 / 2 + 1 / 2 * (o.buffer : ℚ) / (o.extent : ℚ)) / (2 ^ z : ℚ))
        it.bbox.min_x it.bbox.max_x o.line_metrics hp fs with
    | none =>
        rw [h1] at h
        exact absurd h (by simp)
    | some left =>
      rw [h1] at h
      simp only [Option.some_bind] at h
      have hleft := clip_cvle _ _ _ _ _ _ _ _ _ hfs h1
      cases h2 : clip .y1 (((y : ℚ) - 1 / 2 * (o.buffer : ℚ) / (o.extent : ℚ)) / (2 ^ z : ℚ))
          (((y : ℚ) + 1 / 2 + 1 / 2 * (o.buffer : ℚ) / (o.extent : ℚ)) / (2 ^ z : ℚ))
          it.bbox.min_y it.bbox.max_y o.line_metrics hp left with
      | none =>
          rw [h2] at h
          exact absurd h (by simp)
      | some leftTop =>
        rw [h2] at h
        simp only [Option.some_bind] at h
        have hlt := clip_cvle _ _ _ _ _ _ _ _ _ hleft h2
        cases h3 : recur leftTop (z + 1) (x * 2) (y * 2) (setSource ts (toId z x y) []) with
        | none =>
            rw [h3] at h
            exact absurd h (by simp)
        | some ts1 =>
          rw [h3] at h
          simp only [Option.some_bind] at h
          have hts2 : tilesInv ts1 := hrec _ _ _ _ _ _ hlt hts1 h3
          cases h4 : clip .y1
              (((y : ℚ) + 1 / 2 - 1 / 2 * (o.buffer : ℚ) / (o.extent : ℚ)) / (2 ^ z : ℚ))
              (((y : ℚ) + 1 + 1 / 2 * (o.buffer : ℚ) / (o.extent : ℚ)) / (2 ^ z : ℚ))
              it.bbox.min_y it.bbox.max_y o.line_metrics hp left with
          | none =>
              rw [h4] at h
              exact absurd h (by simp)
          | some leftBottom =>
            rw [h4] at h
            simp only [Option.some_bind] at h
            have hlb := clip_cvle _ _ _ _ _ _ _ _ _ hleft h4
            cases h5 : recur leftBottom (z + 1) (x * 2) (y * 2 + 1) ts1 with
            | none =>
                rw [h5] at h
                exact absurd h (by simp)
            | some ts2 =>
              rw [h5] at h
              simp only [Option.some_bind] at h
              have hts3 : tilesInv ts2 := hrec _ _ _ _ _ _ hlb hts2 h5
              cases h6 : clip .x0
                  (((x : ℚ) + 1 / 2 - 1 / 2 * (o.buffer : ℚ) / (o.extent : ℚ)) / (2 ^ z : ℚ))
                  (((x : ℚ) + 1 + 1 / 2 * (o.buffer : ℚ) / (o.extent : ℚ)) / (2 ^ z : ℚ))
                  it.bbox.min_x it.bbox.max_x o.line_metrics hp fs with
              | none =>
                  rw [h6] at h
                  exact absurd h (by simp)
              | some right =>
                rw [h6] at h
                simp only [Option.some_bind] at h
                have hright := clip_cvle _ _ _ _ _ _ _ _ _ hfs h6
                cases h7 : clip .y1
                    (((y : ℚ) - 1 / 2 * (o.buffer : ℚ) / (o.extent : ℚ)) / (2 ^ z : ℚ))
                    (((y : ℚ) + 1 / 2 + 1 / 2 * (o.buffer : ℚ) / (o.extent : ℚ)) / (2 ^ z : ℚ))
                    it.bbox.min_y it.bbox.max_y o.line_metrics hp right with
                | none =>
                    rw [h7] at h
                    exact absurd h (by simp)
                | some rightTop =>
                  rw [h7] at h
                  simp only [Option.some_bind] at h
                  have hrt := clip_cvle _ _ _ _ _ _ _ _ _ hright h7
                  cases h8 : recur rightTop (z + 1) (x * 2 + 1) (y * 2) ts2 with
                  | none =>
                      rw [h8] at h
                      exact absurd h (by simp)
                  | some ts3 =>
                    rw [h8] at h
                    simp only [Option.some_bind] at h
                    have hts4 : tilesInv ts3 := hrec _ _ _ _ _ _ hrt hts3 h8
                    cases h9 : clip .y1
                        (((y : ℚ) + 1 / 2 - 1 / 2 * (o.buffer : ℚ) / (o.extent : ℚ)) / (2 ^ z : ℚ))
                        (((y : ℚ) + 1 + 1 / 2 * (o.buffer : ℚ) / (o.extent : ℚ)) / (2 ^ z : ℚ))
                        it.bbox.min_y it.bbox.max_y o.line_metrics hp right with
                    | none =>
                        rw [h9] at h
                        exact absurd h (by simp)
                    | some rightBottom =>
                      rw [h9] at h
                      simp only [Option.some_bind] at h
                      have hrb := clip_cvle _ _ _ _ _ _ _ _ _ hright h9
                      exact hrec _ _ _ _ _ _ hrb hts4 h

theorem splitTile_tilesInv (o : VTOptions) (hp : VtPoint → VtPoint → ℚ) :
    ∀ (fuel : ℕ) (fs : List VtFeature) (z x y cz cx cy : ℕ) (ts ts' : Tiles),
      (∀ f ∈ fs, cvle f) → tilesInv ts →
      splitTile o hp fuel fs z x y cz cx cy ts = some ts' → tilesInv ts'
  | 0, fs, z, x, y, cz, cx, cy, ts, ts', _, hts, h => by
      rw [splitTile, Option.some.injEq] at h
      subst h
      exact hts
  | fuel + 1, fs, z, x, y, cz, cx, cy, ts, ts', hfs, hts, h => by
      rw [splitTile] at h
      simp only [] at h
      have hrec : ∀ fs' z' x' y' ts0 ts0', (∀ f ∈ fs', cvle f) → tilesInv ts0 →
          splitTile o hp fuel fs' z' x' y' cz cx cy ts0 = some ts0' → tilesInv ts0' :=
        fun fs' z' x' y' ts0 ts0' hc ht hq =>
          splitTile_tilesInv o hp fuel fs' z' x' y' cz cx cy ts0 ts0' hc ht hq
      set TS1 := if (lookupTile ts (toId z x y)).isSome then ts
        else insertTile ts (toId z x y) (ITile.new fs z x y o.extent
          (if z = o.max_zoom then 0 else o.tolerance / ((2 ^ z : ℚ) * (o.extent : ℚ)))
          o.line_metrics) with hTS1
      have hts1 : tilesInv TS1 := by
        rw [hTS1]
        split
        · exact hts
        · exact insertTile_tilesInv _ _ _ hts (ITile_new_tileInv _ _ _ _ _ _ _ hfs)
      cases hlk : lookupTile TS1 (toId z x y) with
      | none =>
          rw [hlk] at h
          exact absurd h (by simp)
      | some it =>
        rw [hlk] at h
        simp only [] at h
        by_cases hcz : cz = 0
        · rw [if_pos hcz] at h
          by_cases hstop : z = o.index_max_zoom ∨ it.tile.point_count ≤ o.index_max_points
          · rw [if_pos hstop, Option.some.injEq] at h
            subst h
            exact setSource_tilesInv _ _ _ hts1 hfs
          · rw [if_neg hstop] at h
            exact splitDescend_tilesInv o hp _ hrec fs z x y it TS1 ts' hfs hts1 h
        · rw [if_neg hcz] at h
          by_cases hz : z = o.max_zoom
          · rw [if_pos hz, Option.some.injEq] at h
            subst h
            exact hts1
          · rw [if_neg hz] at h
            by_cases hzc : z = cz
            · rw [if_pos hzc, Option.some.injEq] at h
              subst h
              exact setSource_tilesInv _ _ _ hts1 hfs
            · rw [if_neg hzc] at h
              by_cases hxy : x ≠ cx / 2 ^ (cz - z) ∨ y ≠ cy / 2 ^ (cz - z)
              · rw [if_pos hxy, Option.some.injEq] at h
                subst h
                exact setSource_tilesInv _ _ _ hts1 hfs
              · rw [if_neg hxy] at h
                exact splitDescend_tilesInv o hp _ hrec fs z x y it TS1 ts' hfs hts1 h

theorem findParentGo_tileInv (ts : Tiles) (hts : tilesInv ts) :
    ∀ (z x y : ℕ) (it : ITile), findParentGo ts z x y = some it → tileInv it
  | 0, x, y, it, h => absurd h (by rw [findParentGo]; simp)
  | z + 1, x, y, it, h => by
      rw [findParentGo] at h
      cases hlk : lookupTile ts (toId z (x / 2) (y / 2)) with
      | some p =>
          rw [hlk] at h
          simp only [Option.some.injEq] at h
          subst h
          exact lookupTile_tileInv ts _ _ hts hlk
      | none =>
          rw [hlk] at h
          exact findParentGo_tileInv ts hts z (x / 2) (y / 2) it h

theorem convert_cvle (projY : ℚ → ℚ) (hp : VtPoint → VtPoint → ℚ) (fc : List GJFeature)
    (tol : ℚ) : ∀ f ∈ convert projY hp fc tol, cvle f := by
  intro f hf
  rw [convert] at hf
  rcases List.mem_filterMap.mp hf with ⟨gj, _, hgj⟩
  cases hog : gj.geometry with
  | none =>
      rw [hog] at hgj
      exact absurd hgj (by simp)
  | some g =>
    rw [hog] at hgj
    simp only [Option.some_bind] at hgj
    cases hcg : convertGeometry projY hp tol g with
    | none =>
        rw [hcg] at hgj
        exact absurd hgj (by simp)
    | some v =>
      rw [hcg] at hgj
      simp only [Option.map_some', Option.some.injEq] at hgj
      subst hgj
      exact VtFeature_new_cvle v

theorem tileCall_inv (hp : VtPoint → VtPoint → ℚ) (s : VTState) (z x y : ℕ)
    (t : Tile) (s2 : VTState)
    (hts : tilesInv s.tiles) (h : tileCall hp s z x y = some (t, s2)) :
    t.simplified_count ≤ t.point_count ∧ tilesInv s2.tiles := by
  rw [tileCall] at h
  split at h
  · exact absurd h (by simp)
  · simp only [] at h
    cases hlk : lookupTile s.tiles
        (toId z ((x % 2 ^ 32 % 2 ^ z + 2 ^ z) % 2 ^ z) (y % 2 ^ 32)) with
    | some it =>
        rw [hlk] at h
        simp only [Option.some.injEq, Prod.mk.injEq] at h
        obtain ⟨h1, h2⟩ := h
        subst h1
        subst h2
        exact ⟨(lookupTile_tileInv _ _ _ hts hlk).1, hts⟩
    | none =>
      rw [hlk] at h
      cases hfp : findParentGo s.tiles z ((x % 2 ^ 32 % 2 ^ z + 2 ^ z) % 2 ^ z)
          (y % 2 ^ 32) with
      | none =>
          rw [hfp] at h
          exact absurd h (by simp)
      | some parent =>
        rw [hfp] at h
        simp only [] at h
        rcases Option.map_eq_some'.mp h with ⟨ts2, hsp, hmap⟩
        have hts2 : tilesInv ts2 :=
          splitTile_tilesInv s.options hp _ _ _ _ _ _ _ _ _ ts2
            (findParentGo_tileInv s.tiles hts z _ _ parent hfp).2 hts hsp
        simp only [Prod.mk.injEq] at hmap
        obtain ⟨h1, h2⟩ := hmap
        subst h2
        refine ⟨?_, hts2⟩
        split at h1
        · subst h1
          rename_i it2 hlk2
          exact (lookupTile_tileInv _ _ _ hts2 hlk2).1
        · subst h1
          exact le_refl 0

theorem VTnew_tilesInv (projY : ℚ → ℚ) (hp : VtPoint → VtPoint → ℚ) (o : VTOptions)
    (fc : List GJFeature) (s : VTState)
    (h : VTnew projY hp o fc = some s) : tilesInv s.tiles := by
  rw [VTnew] at h
  split at h
  · exact absurd h (by simp)
  · simp only [] at h
    cases hw : wrap hp
        (convert projY hp fc (o.tolerance / (o.extent : ℚ) / ((2 ^ o.max_zoom : ℚ))))
        ((o.buffer : ℚ) / (o.extent : ℚ)) o.line_metrics with
    | none =>
        rw [hw] at h
        exact absurd h (by simp)
    | some vt =>
      rw [hw] at h
      simp only [Option.some_bind] at h
      have hvt : ∀ f ∈ vt, cvle f :=
        wrap_cvle hp _ _ _ vt (convert_cvle projY hp fc _) hw
      cases hsp : splitTile o hp (o.index_max_zoom + 1) vt 0 0 0 0 0 0 [] with
      | none =>
          rw [hsp] at h
          exact absurd h (by simp)
      | some ts =>
        rw [hsp] at h
        simp only [Option.map_some', Option.some.injEq] at h
        subst h
        exact splitTile_tilesInv o hp _ vt 0 0 0 0 0 0 [] ts hvt nilTiles_inv hsp

set_option maxHeartbeats 1000000 in
theorem VTnew_empty_eq :
    VTnew projYLin hpZero VTOptions.default [] = some emptyBuildState := by
  norm_num [VTnew, VTOptions.default, convert, wrap, clip, XQ.geQ, XQ.leQ, XQ.ltQ, XQ.gtQ,
    splitTile, lookupTile, insertTile, setSource, toId, ITile.new, emptyBuildState,
    rootITile, List.filterMap_nil, List.foldl_nil, Option.some_bind, XBBox.default,
    List.find?]

/-- **C5.** Every emitted `Tile` satisfies `simplified_count ≤ point_count`:
after a successful `GeoJSONVT::new` every stored internal tile satisfies the
inequality (together with the stronger invariant that retained source
features carry dominating `point_count`s, which is what `tilesInv` states),
and from any state satisfying that invariant, `tile()` returns a tile
satisfying the inequality and a state satisfying the invariant again. -/
theorem c5_simplified_le_point_count (projY : ℚ → ℚ) (hp : VtPoint → VtPoint → ℚ)
    (o : VTOptions) (fc : List GJFeature) (s : VTState)
    (h : VTnew projY hp o fc = some s) :
    tilesInv s.tiles ∧
    ∀ (s1 : VTState) (z x y : ℕ) (t : Tile) (s2 : VTState),
      tilesInv s1.tiles → tileCall hp s1 z x y = some (t, s2) →
      t.simplified_count ≤ t.point_count ∧ tilesInv s2.tiles :=
  ⟨VTnew_tilesInv projY hp o fc s h,
   fun s1 z x y t s2 h1 h2 => tileCall_inv hp s1 z x y t s2 h1 h2⟩

/-- Witness for `c5_simplified_le_point_count` at a concrete input. -/
theorem c5_simplified_le_point_count_witness :
    VTnew projYLin hpZero VTOptions.default [] = some emptyBuildState ∧
    tilesInv emptyBuildState.tiles :=
  ⟨VTnew_empty_eq,
   (c5_simplified_le_point_count projYLin hpZero VTOptions.default [] emptyBuildState
      VTnew_empty_eq).1⟩


/-- **C9** (amended): the zoom-range failures are real: construction fails
when `maxZoom ∉ (0, 24]` and `tile()` fails when the requested `z` exceeds
`maxZoom`.  But they are not the only failure modes: `tile()` can also fail
for `z ≤ maxZoom`, because `y` is not normalized and a request with
`y ≥ 2^z` misses every ancestor, making `find_parent(..).unwrap()` panic
(see the counterexample); construction can additionally panic in `clip` on a
converted feature without a bbox. -/
theorem c9_failure_modes (projY : ℚ → ℚ) (hp : VtPoint → VtPoint → ℚ)
    (o : VTOptions) (fc : List GJFeature) :
    (¬(0 < o.max_zoom ∧ o.max_zoom ≤ 24) → VTnew projY hp o fc = none) ∧
    ∀ (s : VTState) (z x y : ℕ), s.options.max_zoom < z → tileCall hp s z x y = none := by
  constructor
  · intro hmz
    rw [VTnew, if_pos hmz]
  · intro s z x y hz
    rw [tileCall, if_pos hz]

/-- Counterexample for C9 as stated: on the index built from the empty
feature collection with default options (`maxZoom = 18`), the call
`tile(0, 0, 1)` has `z = 0 ≤ maxZoom` yet fails (the Rust code panics on
`find_parent(0, 0, 1).unwrap()`), instead of returning an empty tile. -/
theorem c9_counterexample :
    VTnew projYLin hpZero VTOptions.default [] = some emptyBuildState ∧
    (0 : ℕ) ≤ emptyBuildState.options.max_zoom ∧
    (tileCall hpZero emptyBuildState 0 0 1).isSome = false :=
  ⟨VTnew_empty_eq, by decide, by decide⟩

/-- Witness for `c9_failure_modes` at concrete inputs. -/
theorem c9_failure_modes_witness :
    VTnew projYLin hpZero ⟨0, 5, 100000, 3, 4096, 64, false, false⟩ [] = none ∧
    tileCall hpZero emptyBuildState 19 0 0 = none :=
  ⟨(c9_failure_modes projYLin hpZero ⟨0, 5, 100000, 3, 4096, 64, false, false⟩ []).1
     (by decide),
   (c9_failure_modes projYLin hpZero VTOptions.default []).2 emptyBuildState 19 0 0
     (by decide)⟩


theorem lookupTile_insert_self (ts : Tiles) (k : ℕ) (it : ITile) :
    lookupTile (insertTile ts k it) k = some it := by
  simp [insertTile, lookupTile]

theorem lookupTile_cons (q : ℕ × ITile) (ts : Tiles) (k : ℕ) :
    lookupTile (q :: ts) k = if q.1 == k then some q.2 else lookupTile ts k := by
  cases hq : (q.1 == k) with
  | true => simp [lookupTile, List.find?_cons, hq]
  | false => simp [lookupTile, List.find?_cons, hq]

theorem lookupTile_insert_isSome (ts : Tiles) (k0 : ℕ) (it : ITile) (k : ℕ)
    (h : (lookupTile ts k).isSome = true) :
    (lookupTile (insertTile ts k0 it) k).isSome = true := by
  rw [insertTile, lookupTile_cons]
  simp only []
  by_cases hk : (k0 == k) = true
  · rw [if_pos hk]
    rfl
  · rw [if_neg hk]
    exact h

theorem lookupTile_setSource_isSome (k0 : ℕ) (fs : List VtFeature) (k : ℕ) :
    ∀ ts : Tiles, (lookupTile (setSource ts k0 fs) k).isSome = (lookupTile ts k).isSome
  | [] => rfl
  | p :: ts => by
      have ih := lookupTile_setSource_isSome k0 fs k ts
      rw [setSource, List.map_cons]
      by_cases hk0 : (p.1 == k0) = true
      · rw [if_pos hk0, lookupTile_cons, lookupTile_cons]
        simp only []
        by_cases hk : (p.1 == k) = true
        · rw [if_pos hk, if_pos hk]
          rfl
        · rw [if_neg hk, if_neg hk]
          exact ih
      · rw [if_neg hk0, lookupTile_cons, lookupTile_cons]
        by_cases hk : (p.1 == k) = true
        · rw [if_pos hk, if_pos hk]
        · rw [if_neg hk, if_neg hk]
          exact ih

theorem splitDescend_mono (o : VTOptions) (hp : VtPoint → VtPoint → ℚ)
    (recur : List VtFeature → ℕ → ℕ → ℕ → Tiles → Option Tiles)
    (hrec : ∀ fs z x y ts ts', recur fs z x y ts = some ts' →
      ∀ k, (lookupTile ts k).isSome = true → (lookupTile ts' k).isSome = true)
    (fs : List VtFeature) (z x y : ℕ) (it : ITile) (ts ts' : Tiles)
    (h : splitDescend o hp recur fs z x y it ts = some ts') :
    ∀ k, (lookupTile ts k).isSome = true → (lookupTile ts' k).isSome = true := by
  intro k hk
  have hk1 : (lookupTile (setSource ts (toId z x y) []) k).isSome = true := by
    rw [lookupTile_setSource_isSome]
    exact hk
  delta splitDescend at h
  by_cases he : fs.isEmpty = true
  · rw [if_pos he, Option.some.injEq] at h
    subst h
    exact hk1
  · rw [if_neg he] at h
    simp only [] at h
    cases h1 : clip .x0 (((x : ℚ) - 1 / 2 * (o.buffer : ℚ) / (o.extent : ℚ)) / (2 ^ z : ℚ))
        (((x : ℚ) + 1 / 2 + 1 / 2 * (o.buffer : ℚ) / (o.extent : ℚ)) / (2 ^ z : ℚ))
        it.bbox.min_x it.bbox.max_x o.line_metrics hp fs with
    | none =>
        rw [h1] at h
        exact absurd h (by simp)
    | some left =>
      rw [h1] at h
      simp only [Option.some_bind] at h
      cases h2 : clip .y1 (((y : ℚ) - 1 / 2 * (o.buffer : ℚ) / (o.extent : ℚ)) / (2 ^ z : ℚ))
          (((y : ℚ) + 1 / 2 + 1 / 2 * (o.buffer : ℚ) / (o.extent : ℚ)) / (2 ^ z : ℚ))
          it.bbox.min_y it.bbox.max_y o.line_metrics hp left with
      | none =>
          rw [h2] at h
          exact absurd h (by simp)
      | some leftTop =>
        rw [h2] at h
        simp only [Option.some_bind] at h
        cases h3 : recur leftTop (z + 1) (x * 2) (y * 2) (setSource ts (toId z x y) []) with
        | none =>
            rw [h3] at h
            exact absurd h (by simp)
        | some ts1 =>
          rw [h3] at h
          simp only [Option.some_bind] at h
          have hk2 := hrec _ _ _ _ _ _ h3 k hk1
          cases h4 : clip .y1
              (((y : ℚ) + 1 / 2 - 1 / 2 * (o.buffer : ℚ) / (o.extent : ℚ)) / (2 ^ z : ℚ))
              (((y : ℚ) + 1 + 1 / 2 * (o.buffer : ℚ) / (o.extent : ℚ)) / (2 ^ z : ℚ))
              it.bbox.min_y it.bbox.max_y o.line_metrics hp left with
          | none =>
              rw [h4] at h
              exact absurd h (by simp)
          | some leftBottom =>
            rw [h4] at h
            simp only [Option.some_bind] at h
            cases h5 : recur leftBottom (z + 1) (x * 2) (y * 2 + 1) ts1 with
            | none =>
                rw [h5] at h
                exact absurd h (by simp)
            | some ts2 =>
              rw [h5] at h
              simp only [Option.some_bind] at h
              have hk3 := hrec _ _ _ _ _ _ h5 k hk2
              cases h6 : clip .x0
                  (((x : ℚ) + 1 / 2 - 1 / 2 * (o.buffer : ℚ) / (o.extent : ℚ)) / (2 ^ z : ℚ))
                  (((x : ℚ) + 1 + 1 / 2 * (o.buffer : ℚ) / (o.extent : ℚ)) / (2 ^ z : ℚ))
                  it.bbox.min_x it.bbox.max_x o.line_metrics hp fs with
              | none =>
                  rw [h6] at h
                  exact absurd h (by simp)
              | some right =>
                rw [h6] at h
                simp only [Option.some_bind] at h
                cases h7 : clip .y1
                    (((y : ℚ) - 1 / 2 * (o.buffer : ℚ) / (o.extent : ℚ)) / (2 ^ z : ℚ))
                    (((y : ℚ) + 1 / 2 + 1 / 2 * (o.buffer : ℚ) / (o.extent : ℚ)) / (2 ^ z : ℚ))
                    it.bbox.min_y it.bbox.max_y o.line_metrics hp right with
                | none =>
                    rw [h7] at h
                    exact absurd h (by simp)
                | some rightTop =>
                  rw [h7] at h
                  simp only [Option.some_bind] at h
                  cases h8 : recur rightTop (z + 1) (x * 2 + 1) (y * 2) ts2 with
                  | none =>
                      rw [h8] at h
                      exact absurd h (by simp)
                  | some ts3 =>
                    rw [h8] at h
                    simp only [Option.some_bind] at h
                    have hk4 := hrec _ _ _ _ _ _ h8 k hk3
                    cases h9 : clip .y1
                        (((y : ℚ) + 1 / 2 - 1 / 2 * (o.buffer : ℚ) / (o.extent : ℚ)) / (2 ^ z : ℚ))
                        (((y : ℚ) + 1 + 1 / 2 * (o.buffer : ℚ) / (o.extent : ℚ)) / (2 ^ z : ℚ))
                        it.bbox.min_y it.bbox.max_y o.line_metrics hp right with
                    | none =>
                        rw [h9] at h
                        exact absurd h (by simp)
                    | some rightBottom =>
                      rw [h9] at h
                      simp only [Option.some_bind] at h
                      exact hrec _ _ _ _ _ _ h k hk4

theorem splitTile_mono (o : VTOptions) (hp : VtPoint → VtPoint → ℚ) :
    ∀ (fuel : ℕ) (fs : List VtFeature) (z x y cz cx cy : ℕ) (ts ts' : Tiles),
      splitTile o hp fuel fs z x y cz cx cy ts = some ts' →
      ∀ k, (lookupTile ts k).isSome = true → (lookupTile ts' k).isSome = true
  | 0, fs, z, x, y, cz, cx, cy, ts, ts', h => by
      rw [splitTile, Option.some.injEq] at h
      subst h
      exact fun k hk => hk
  | fuel + 1, fs, z, x, y, cz, cx, cy, ts, ts', h => by
      intro k hk
      rw [splitTile] at h
      simp only [] at h
      have hrec : ∀ fs' z' x' y' ts0 ts0', splitTile o hp fuel fs' z' x' y' cz cx cy ts0 = some ts0' →
          ∀ k', (lookupTile ts0 k').isSome = true → (lookupTile ts0' k').isSome = true :=
        fun fs' z' x' y' ts0 ts0' hq =>
          splitTile_mono o hp fuel fs' z' x' y' cz cx cy ts0 ts0' hq
      set TS1 := if (lookupTile ts (toId z x y)).isSome then ts
        else insertTile ts (toId z x y) (ITile.new fs z x y o.extent
          (if z = o.max_zoom then 0 else o.tolerance / ((2 ^ z : ℚ) * (o.extent : ℚ)))
          o.line_metrics) with hTS1
      have hk1 : (lookupTile TS1 k).isSome = true := by
        rw [hTS1]
        split
        · exact hk
        · exact lookupTile_insert_isSome ts _ _ k hk
      cases hlk : lookupTile TS1 (toId z x y) with
      | none =>
          rw [hlk] at h
          exact absurd h (by simp)
      | some it =>
        rw [hlk] at h
        simp only [] at h
        by_cases hcz : cz = 0
        · rw [if_pos hcz] at h
          by_cases hstop : z = o.index_max_zoom ∨ it.tile.point_count ≤ o.index_max_points
          · rw [if_pos hstop, Option.some.injEq] at h
            subst h
            rw [lookupTile_setSource_isSome]
            exact hk1
          · rw [if_neg hstop] at h
            exact splitDescend_mono o hp _ hrec fs z x y it TS1 ts' h k hk1
        · rw [if_neg hcz] at h
          by_cases hz : z = o.max_zoom
          · rw [if_pos hz, Option.some.injEq] at h
            subst h
            exact hk1
          · rw [if_neg hz] at h
            by_cases hzc : z = cz
            · rw [if_pos hzc, Option.some.injEq] at h
              subst h
              rw [lookupTile_setSource_isSome]
              exact hk1
            · rw [if_neg hzc] at h
              by_cases hxy : x ≠ cx / 2 ^ (cz - z) ∨ y ≠ cy / 2 ^ (cz - z)
              · rw [if_pos hxy, Option.some.injEq] at h
                subst h
                rw [lookupTile_setSource_isSome]
                exact hk1
              · rw [if_neg hxy] at h
                exact splitDescend_mono o hp _ hrec fs z x y it TS1 ts' h k hk1

theorem splitTile_self_present (o : VTOptions) (hp : VtPoint → VtPoint → ℚ)
    (fuel : ℕ) (fs : List VtFeature) (z x y cz cx cy : ℕ) (ts ts' : Tiles)
    (h : splitTile o hp (fuel + 1) fs z x y cz cx cy ts = some ts') :
    (lookupTile ts' (toId z x y)).isSome = true := by
  rw [splitTile] at h
  simp only [] at h
  have hrec : ∀ fs' z' x' y' ts0 ts0', splitTile o hp fuel fs' z' x' y' cz cx cy ts0 = some ts0' →
      ∀ k', (lookupTile ts0 k').isSome = true → (lookupTile ts0' k').isSome = true :=
    fun fs' z' x' y' ts0 ts0' hq =>
      splitTile_mono o hp fuel fs' z' x' y' cz cx cy ts0 ts0' hq
  set TS1 := if (lookupTile ts (toId z x y)).isSome then ts
    else insertTile ts (toId z x y) (ITile.new fs z x y o.extent
      (if z = o.max_zoom then 0 else o.tolerance / ((2 ^ z : ℚ) * (o.extent : ℚ)))
      o.line_metrics) with hTS1
  have hk1 : (lookupTile TS1 (toId z x y)).isSome = true := by
    rw [hTS1]
    by_cases hl : (lookupTile ts (toId z x y)).isSome = true
    · rw [if_pos hl]
      exact hl
    · rw [if_neg hl, lookupTile_insert_self]
      rfl
  cases hlk : lookupTile TS1 (toId z x y) with
  | none =>
      rw [hlk] at h
      exact absurd h (by simp)
  | some it =>
    rw [hlk] at h
    simp only [] at h
    by_cases hcz : cz = 0
    · rw [if_pos hcz] at h
      by_cases hstop : z = o.index_max_zoom ∨ it.tile.point_count ≤ o.index_max_points
      · rw [if_pos hstop, Option.some.injEq] at h
        subst h
        rw [lookupTile_setSource_isSome]
        exact hk1
      · rw [if_neg hstop] at h
        exact splitDescend_mono o hp _ hrec fs z x y it TS1 ts' h _ hk1
    · rw [if_neg hcz] at h
      by_cases hz : z = o.max_zoom
      · rw [if_pos hz, Option.some.injEq] at h
        subst h
        exact hk1
      · rw [if_neg hz] at h
        by_cases hzc : z = cz
        · rw [if_pos hzc, Option.some.injEq] at h
          subst h
          rw [lookupTile_setSource_isSome]
          exact hk1
        · rw [if_neg hzc] at h
          by_cases hxy : x ≠ cx / 2 ^ (cz - z) ∨ y ≠ cy / 2 ^ (cz - z)
          · rw [if_pos hxy, Option.some.injEq] at h
            subst h
            rw [lookupTile_setSource_isSome]
            exact hk1
          · rw [if_neg hxy] at h
            exact splitDescend_mono o hp _ hrec fs z x y it TS1 ts' h _ hk1

theorem VTnew_rootPresent (projY : ℚ → ℚ) (hp : VtPoint → VtPoint → ℚ) (o : VTOptions)
    (fc : List GJFeature) (s : VTState)
    (h : VTnew projY hp o fc = some s) : rootPresent s.tiles := by
  rw [VTnew] at h
  split at h
  · exact absurd h (by simp)
  · simp only [] at h
    cases hw : wrap hp
        (convert projY hp fc (o.tolerance / (o.extent : ℚ) / ((2 ^ o.max_zoom : ℚ))))
        ((o.buffer : ℚ) / (o.extent : ℚ)) o.line_metrics with
    | none =>
        rw [hw] at h
        exact absurd h (by simp)
    | some vt =>
      rw [hw] at h
      simp only [Option.some_bind] at h
      cases hsp : splitTile o hp (o.index_max_zoom + 1) vt 0 0 0 0 0 0 [] with
      | none =>
          rw [hsp] at h
          exact absurd h (by simp)
      | some ts =>
        rw [hsp] at h
        simp only [Option.map_some', Option.some.injEq] at h
        subst h
        exact splitTile_self_present o hp o.index_max_zoom vt 0 0 0 0 0 0 [] ts hsp

theorem findParent_success (ts : Tiles) (hroot : rootPresent ts) :
    ∀ (z x y : ℕ), x < 2 ^ z → y < 2 ^ z →
      (lookupTile ts (toId z x y)).isSome = true ∨ (findParentGo ts z x y).isSome = true
  | 0, x, y, hx, hy => by
      have hx0 : x = 0 := Nat.lt_one_iff.mp hx
      have hy0 : y = 0 := Nat.lt_one_iff.mp hy
      subst hx0
      subst hy0
      exact Or.inl hroot
  | z + 1, x, y, hx, hy => by
      by_cases hlk : (lookupTile ts (toId (z + 1) x y)).isSome = true
      · exact Or.inl hlk
      · right
        rw [findParentGo]
        have hx2 : x / 2 < 2 ^ z := by
          rw [Nat.div_lt_iff_lt_mul (by norm_num : 0 < 2)]
          rw [pow_succ] at hx
          exact hx
        have hy2 : y / 2 < 2 ^ z := by
          rw [Nat.div_lt_iff_lt_mul (by norm_num : 0 < 2)]
          rw [pow_succ] at hy
          exact hy
        cases hfound : lookupTile ts (toId z (x / 2) (y / 2)) with
        | some p => simp only [hfound, Option.isSome_some]
        | none =>
            simp only [hfound]
            rcases findParent_success ts hroot z (x / 2) (y / 2) hx2 hy2 with hL | hR
            · rw [hfound] at hL
              exact absurd hL (by simp)
            · exact hR

/-- **C10** (amended): after a successful construction the root tile
`(0, 0, 0)` is always stored, and for every `tile()` request whose wrapped
`y` lies in `[0, 2^z)` either the requested id is stored or the upward
ancestor search succeeds, so `find_parent(..).unwrap()` cannot panic on such
requests.  Because `y` is not normalized, the guarantee genuinely requires
`y % 2^32 < 2^z`: for `y` outside the range the search can miss every
ancestor and the unwrap panics (see the counterexample). -/
theorem c10_root_and_ancestor (projY : ℚ → ℚ) (hp : VtPoint → VtPoint → ℚ)
    (o : VTOptions) (fc : List GJFeature) (s : VTState)
    (h : VTnew projY hp o fc = some s) :
    rootPresent s.tiles ∧
    ∀ (z x y : ℕ), y % 2 ^ 32 < 2 ^ z →
      (lookupTile s.tiles
          (toId z ((x % 2 ^ 32 % 2 ^ z + 2 ^ z) % 2 ^ z) (y % 2 ^ 32))).isSome = true ∨
      (findParentGo s.tiles z
          ((x % 2 ^ 32 % 2 ^ z + 2 ^ z) % 2 ^ z) (y % 2 ^ 32)).isSome = true := by
  have hroot := VTnew_rootPresent projY hp o fc s h
  refine ⟨hroot, ?_⟩
  intro z x y hy
  exact findParent_success s.tiles hroot z _ _
    (Nat.mod_lt _ (pow_pos (by norm_num) z)) hy

/-- Counterexample to C10 as stated: on the freshly built empty index the
request `tile(1, 0, 2)` has `z = 1 ≤ maxZoom` and its tile is not
materialized, yet the ancestor search finds nothing (`y = 2 ≥ 2^1` is not
normalized), so `find_parent(..).unwrap()` panics; the root is present all
along. -/
theorem c10_counterexample :
    VTnew projYLin hpZero VTOptions.default [] = some emptyBuildState ∧
    rootPresent emptyBuildState.tiles ∧
    (findParentGo emptyBuildState.tiles 1 0 2).isNone = true ∧
    (tileCall hpZero emptyBuildState 1 0 2).isSome = false :=
  ⟨VTnew_empty_eq,
   (by decide : (lookupTile emptyBuildState.tiles (toId 0 0 0)).isSome = true),
   by decide, by decide⟩

/-- Witness for `c10_root_and_ancestor` at a concrete input. -/
theorem c10_root_and_ancestor_witness :
    VTnew projYLin hpZero VTOptions.default [] = some emptyBuildState ∧
    (0 : ℕ) % 2 ^ 32 < 2 ^ 0 ∧
    (rootPresent emptyBuildState.tiles ∧
     ((lookupTile emptyBuildState.tiles
          (toId 0 ((0 % 2 ^ 32 % 2 ^ 0 + 2 ^ 0) % 2 ^ 0) (0 % 2 ^ 32))).isSome = true ∨
      (findParentGo emptyBuildState.tiles 0
          ((0 % 2 ^ 32 % 2 ^ 0 + 2 ^ 0) % 2 ^ 0) (0 % 2 ^ 32)).isSome = true)) :=
  ⟨VTnew_empty_eq, by decide,
   ⟨(c10_root_and_ancestor projYLin hpZero VTOptions.default [] emptyBuildState
       VTnew_empty_eq).1,
    (c10_root_and_ancestor projYLin hpZero VTOptions.default [] emptyBuildState
       VTnew_empty_eq).2 0 0 0 (by decide)⟩⟩

end GeoJsonVt
